import Mathlib

/-!
Shallow embedding of the term-rewriting core in src/word.rs of the
knuth-bendix repository: flattened prefix-encoded words over variables and
operators, the Knuth-Bendix weight ordering (PartialOrd for Word), the
occurs-check-free unification, the critical-term (superposition) search and
the completion entry point, together with proofs settling the frozen claims
about them.

Rust machine integers (u64 weights, usize counts, the isize balance counter)
are modelled as Nat and Int; none of the claims depends on wrap-around
behaviour.  Rust's BTreeMap of variable bindings is modelled as a
key-sorted association list with the same insert/lookup/iteration
semantics.  The recursion of partial_cmp and unify through argument
subwords is realised with an explicit fuel argument (one unit per nesting
level, with total symbol length as an always-sufficient budget); fuel
insensitivity is proved below, and the one-step unfolding lemmas recover
the recursive equations of the source.
-/

namespace KB

/-- Symbol from src/word.rs: a variable or an operator instance. -/
inductive Symbol (V O : Type) where
  | var (v : V)
  | op (f : O)
deriving DecidableEq, Repr

/-- The Operator trait of src/word.rs: a family minimum weight together with
per-operator arity and weight.  The Rust trait also requires Ord, modelled
here by a LinearOrder instance on O. -/
class Operator (O : Type) where
  minWeight : Nat
  arity : O → Nat
  weight : O → Nat

/-- Word from src/word.rs: a term stored as a flattened prefix-order symbol
sequence. -/
structure Word (V O : Type) where
  syms : List (Symbol V O)
deriving DecidableEq, Repr

variable {V O : Type} [LinearOrder V] [LinearOrder O] [Operator O]

/-- Symbol::arity: operators report their arity, variables report 0. -/
def symArity : Symbol V O → Nat
  | .var _ => 0
  | .op f => Operator.arity f

/-- Symbol::weight: a variable weighs the family minimum, an operator its own
weight. -/
def symWeight : Symbol V O → Nat
  | .var _ => Operator.minWeight O
  | .op f => Operator.weight f

/-- Word::from_sym. -/
def Word.fromSym (s : Symbol V O) : Word V O := ⟨[s]⟩

/-- Word::var: a single-symbol word. -/
def Word.var (v : V) : Word V O := ⟨[.var v]⟩

/-- Word::op: the operator symbol followed by the concatenated symbols of the
arguments.  The source performs no arity validation. -/
def Word.op (f : O) (args : List (Word V O)) : Word V O :=
  ⟨.op f :: (args.map Word.syms).flatten⟩

/-- Word::weight: sum of the symbol weights. -/
def weight (w : Word V O) : Nat := (w.syms.map symWeight).sum

/-- Word::n: number of positions carrying exactly the symbol Var v. -/
def nOcc (w : Word V O) (v : V) : Nat :=
  w.syms.countP (fun s => decide (s = Symbol.var v))

/-- Word::vars: the variables occurring in the word (as a list; the source
collects them into a BTreeSet, and every use below is order-insensitive). -/
def vars (w : Word V O) : List V :=
  w.syms.filterMap (fun s => match s with | .var v => some v | .op _ => none)

/-- Arity balance of a symbol sequence: the sum of (arity - 1) over the
symbols, as accumulated by Word::is_well_formed. -/
def bal (l : List (Symbol V O)) : Int :=
  (l.map (fun s => (symArity s : Int) - 1)).sum

/-- Word::is_well_formed: starting from 1, adding arity - 1 per symbol must
reach exactly 0. -/
def isWF (w : Word V O) : Bool := decide (1 + bal w.syms = 0)

/-- The inner scan of the Subwords iterator: starting with a required-symbol
count, walk the remaining symbols (missing symbols count as arity 0, exactly
as syms.get(i).map_or(0, Symbol::arity) does) and return how many index
increments the loop performs before the count reaches zero. -/
def takeCount : List (Symbol V O) → Nat → Nat
  | _, 0 => 0
  | [], n => n
  | s :: rest, n + 1 => 1 + takeCount rest (n + symArity s)

/-- The Subwords iterator of src/word.rs, materialised: yield up to k
argument subwords by repeated scans; a scan running past the end of the
symbol buffer makes the slice lookup fail and ends the iteration. -/
def subwordsAux : Nat → List (Symbol V O) → List (Word V O)
  | 0, _ => []
  | k + 1, l =>
    let c := takeCount l 1
    if c ≤ l.length then ⟨l.take c⟩ :: subwordsAux k (l.drop c) else []

/-- Word::subwords: scan starts at index 1 with nargs = arity of the leading
symbol. -/
def subwordsList (w : Word V O) : List (Word V O) :=
  subwordsAux (match w.syms.head? with | some s => symArity s | none => 0) (w.syms.drop 1)

/-- Variable-binding maps (BTreeMap<V, Word>) as key-sorted association
lists. -/
abbrev VMap (V O : Type) := List (V × Word V O)

/-- BTreeMap::get. -/
def mapGet (m : VMap V O) (v : V) : Option (Word V O) :=
  (m.find? (fun p => decide (p.1 = v))).map Prod.snd

/-- BTreeMap::insert: store the new value, return the displaced one. -/
def mapInsert (m : VMap V O) (v : V) (w : Word V O) : VMap V O × Option (Word V O) :=
  match m with
  | [] => ([(v, w)], none)
  | (k, u) :: rest =>
    if v < k then ((v, w) :: (k, u) :: rest, none)
    else if v = k then ((v, w) :: rest, some u)
    else
      let r := mapInsert rest v w
      ((k, u) :: r.1, r.2)

/-- Word::subst on the symbol sequence: a bound variable is replaced by the
symbols of its binding, all other symbols are kept. -/
def substSyms (l : List (Symbol V O)) (m : VMap V O) : List (Symbol V O) :=
  l.flatMap (fun s => match s with
    | .var v =>
      match mapGet m v with
      | some u => u.syms
      | none => [s]
    | .op _ => [s])

/-- Word::subst. -/
def subst (w : Word V O) (m : VMap V O) : Word V O := ⟨substSyms w.syms m⟩

/-- Iterator::partial_cmp over two subword sequences, parametrised by the
element comparison: lexicographic, short-circuiting on the first non-Equal
result, shorter sequence first. -/
def lexCmpWith (cmp : Word V O → Word V O → Option Ordering) :
    List (Word V O) → List (Word V O) → Option Ordering
  | [], [] => some .eq
  | [], _ :: _ => some .lt
  | _ :: _, [] => some .gt
  | x :: xs, y :: ys =>
    match cmp x y with
    | some .eq => lexCmpWith cmp xs ys
    | some .gt => some .gt
    | some .lt => some .lt
    | none => none

/-- The variable-count test of case 1 of partial_cmp: every variable of
either word occurs at least as often in a as in b. -/
def nGeAll (a b : Word V O) : Bool :=
  (vars a ++ vars b).all fun v => decide (nOcc b v ≤ nOcc a v)

/-- The variable-count test of case 2 of partial_cmp: every variable occurs
exactly as often in a as in b. -/
def nEqAll (a b : Word V O) : Bool :=
  (vars a ++ vars b).all fun v => decide (nOcc a v = nOcc b v)

/-- The variable-count test of the mirrored case 1 of partial_cmp. -/
def nLeAll (a b : Word V O) : Bool :=
  (vars a ++ vars b).all fun v => decide (nOcc a v ≤ nOcc b v)

/-- One level of PartialOrd::partial_cmp for Word (src/word.rs), with the
recursive comparison of argument subwords abstracted as rec. -/
def pcStep (rec : Word V O → Word V O → Option Ordering) (a b : Word V O) :
    Option Ordering :=
  if weight b < weight a then
    if nGeAll a b then some .gt else none
  else if weight a = weight b then
    if nEqAll a b then
      match a.syms.head?, b.syms.head? with
      | some (.op _), some (.var _) => some .gt
      | some (.var _), some (.op _) => some .lt
      | some (.var _), some (.var _) => some .eq
      | some (.op f), some (.op g) =>
        if g < f then some .gt
        else if f = g then lexCmpWith rec (subwordsList a) (subwordsList b)
        else some .lt
      | _, _ => none
    else none
  else if nLeAll a b then some .lt else none

/-- Fuelled partial_cmp; the fuel only bounds the nesting depth through
argument subwords and is proved insensitive below. -/
def partialCmpF : Nat → Word V O → Word V O → Option Ordering
  | 0, _, _ => none
  | n + 1, a, b => pcStep (partialCmpF n) a b

/-- PartialOrd::partial_cmp for Word. -/
def partialCmp (a b : Word V O) : Option Ordering :=
  partialCmpF (a.syms.length + b.syms.length + 1) a b

/-- PartialEq for Word: defined as ordering-Equal, not structural equality. -/
def wordEqb (a b : Word V O) : Bool := decide (partialCmp a b = some Ordering.eq)

/-- The merge loop inside unify: insert each binding of the recursive
substitution, failing when a variable already holds a binding that is not
ordering-Equal to the new one (the source compares the displaced value with
the new one using Word's PartialEq). -/
def mergeSubst : VMap V O → List (V × Word V O) → Option (VMap V O)
  | m, [] => some m
  | m, (v, w) :: rest =>
    let r := mapInsert m v w
    match r.2 with
    | some ow => if wordEqb ow w then mergeSubst r.1 rest else none
    | none => mergeSubst r.1 rest

/-- The for-loop of the operator case of unify: unify corresponding argument
subwords in order, merging each resulting substitution. -/
def unifyPairsWith (u : Word V O → Word V O → Option (VMap V O)) :
    List (Word V O × Word V O) → VMap V O → Option (VMap V O)
  | [], m => some m
  | (s, t) :: rest, m =>
    match u s t with
    | some sub =>
      match mergeSubst m sub with
      | some m2 => unifyPairsWith u rest m2
      | none => none
    | none => none

/-- One level of Word::unify with the recursive call abstracted: a leading
variable binds to the whole other word with no occurs-check; equal leading
operators unify argument subwords pairwise; everything else fails. -/
def uStep (rec : Word V O → Word V O → Option (VMap V O)) (a b : Word V O) :
    Option (VMap V O) :=
  match a.syms.head?, b.syms.head? with
  | some (.var v), some _ => some [(v, b)]
  | some (.op f), some (.op g) =>
    if f = g then unifyPairsWith rec ((subwordsList a).zip (subwordsList b)) []
    else none
  | _, _ => none

/-- Fuelled Word::unify. -/
def unifyF : Nat → Word V O → Word V O → Option (VMap V O)
  | 0, _, _ => none
  | n + 1, a, b => uStep (unifyF n) a b

/-- Word::unify. -/
def unify (a b : Word V O) : Option (VMap V O) :=
  unifyF (a.syms.length + b.syms.length + 1) a b

/-- Test used by critical_term to skip bare-variable (sub)words. -/
def varHeaded (w : Word V O) : Bool :=
  match w.syms.head? with
  | some (.var _) => true
  | _ => false

/-- One subword-scanning loop of critical_term: for each non-variable
subword s, try unify(s, other) and then unify(other, s); on success apply
the unifier to the whole word (respectively to other). -/
def scanSubwords (whole other : Word V O) : List (Word V O) → Option (Word V O)
  | [] => none
  | s :: rest =>
    if varHeaded s then scanSubwords whole other rest
    else
      match unify s other with
      | some vmap => some (subst whole vmap)
      | none =>
        match unify other s with
        | some vmap => some (subst other vmap)
        | none => scanSubwords whole other rest

/-- critical_term from src/word.rs. -/
def critical_term (t u : Word V O) : Option (Word V O) :=
  if varHeaded t then none
  else if varHeaded u then none
  else
    match unify t u with
    | some vmap => some (subst t vmap)
    | none =>
      match unify u t with
      | some vmap => some (subst u vmap)
      | none =>
        match scanSubwords t u (subwordsList t) with
        | some ct => some ct
        | none => scanSubwords u t (subwordsList u)

/-- The while-let loop of knuth_bendix: pop axioms from the back of the
worklist and push each one, unchanged, onto the rule list. -/
def kbLoop (axs rules : List (Word V O × Word V O)) : List (Word V O × Word V O) :=
  match h : axs.getLast? with
  | none => rules
  | some ax => kbLoop axs.dropLast (rules ++ [ax])
termination_by axs.length
decreasing_by
  have hne : axs ≠ [] := by
    intro hnil
    rw [hnil] at h
    simp at h
  have : axs.length ≠ 0 := fun h0 => hne (List.length_eq_zero.mp h0)
  simp [List.length_dropLast]
  omega

/-- knuth_bendix from src/word.rs: the completion loop is a stub that
re-queues every axiom as a rule and always succeeds. -/
def knuth_bendix (axs : List (Word V O × Word V O)) :
    Option (List (Word V O × Word V O)) :=
  some (kbLoop axs [])

/-- Concrete operator signature used for witness computations, in the style
of src/prod.rs and src/sum.rs: operator 0 is a nullary weight-1 constant,
operator 1 a unary weight-0 operator, operator 2 a binary weight-1 operator
and operator 3 a nullary weight-0 constant; the family minimum weight is 1. -/
instance : Operator Nat where
  minWeight := 1
  arity f := if f = 1 then 1 else if f = 2 then 2 else 0
  weight f := if f = 0 then 1 else if f = 2 then 1 else 0

/-- A symbol sequence that is the prefix encoding of exactly k complete
trees laid end to end: its balance is -k and no proper prefix already
reaches balance -k (no tree sequence completes early). -/
def SeqComplete (k : Nat) (l : List (Symbol V O)) : Prop :=
  bal l = -(k : Int) ∧ ∀ d, d < l.length → -(k : Int) < bal (l.take d)

/-- A symbol sequence that is the prefix encoding of exactly one complete
tree: balance -1 and every proper prefix is still incomplete. -/
abbrev Complete (l : List (Symbol V O)) : Prop := SeqComplete 1 l

instance (k : Nat) (l : List (Symbol V O)) : Decidable (SeqComplete k l) :=
  inferInstanceAs (Decidable (_ ∧ _))

/-- Modelled from the spec: the tree a word is meant to encode ("an
operator symbol is immediately followed by the flattened encodings of its
arguments, recursively, argument count fixed by that operator's arity"). -/
inductive Tree (V O : Type) where
  | var (v : V)
  | node (f : O) (ts : List (Tree V O))

/-- Modelled from the spec: prefix (Polish) encoding of a tree. -/
def encodeTree : Tree V O → List (Symbol V O)
  | .var v => [.var v]
  | .node f ts => .op f :: (ts.attach.map (fun x => encodeTree x.1)).flatten
termination_by t => sizeOf t
decreasing_by
  simp_wf
  have := List.sizeOf_lt_of_mem x.2
  omega

/-- Modelled from the spec: a tree is complete when every node carries
exactly arity-many argument subtrees. -/
inductive WFTree : Tree V O → Prop where
  | var : ∀ v, WFTree (Tree.var v)
  | node : ∀ f ts, ts.length = Operator.arity f → (∀ t ∈ ts, WFTree t) →
      WFTree (Tree.node f ts)

/-- The representation invariant of the BTreeMap model: keys strictly
increasing. -/
def VSorted (m : VMap V O) : Prop := List.Pairwise (fun p q => p.1 < q.1) m

theorem bal_nil : bal ([] : List (Symbol V O)) = 0 := rfl

theorem bal_cons (s : Symbol V O) (l : List (Symbol V O)) :
    bal (s :: l) = ((symArity s : Int) - 1) + bal l := by
  simp [bal]

theorem bal_append (l1 l2 : List (Symbol V O)) :
    bal (l1 ++ l2) = bal l1 + bal l2 := by
  simp [bal]

theorem takeCount_pos (l : List (Symbol V O)) (n : Nat) :
    0 < takeCount l (n + 1) := by
  cases l with
  | nil => simp [takeCount]
  | cons s rest => simp [takeCount]

theorem takeCount_bal :
    ∀ (l : List (Symbol V O)) (n : Nat), takeCount l n ≤ l.length →
      bal (l.take (takeCount l n)) = -(n : Int) := by
  intro l
  induction l with
  | nil =>
    intro n h
    cases n with
    | zero => simp [takeCount, bal]
    | succ m => simp [takeCount] at h
  | cons s rest ih =>
    intro n h
    cases n with
    | zero => simp [takeCount, bal]
    | succ m =>
      have hc : takeCount (s :: rest) (m + 1) = takeCount rest (m + symArity s) + 1 := by
        simp [takeCount, Nat.add_comm]
      rw [hc] at h ⊢
      simp only [List.length_cons] at h
      have h' : takeCount rest (m + symArity s) ≤ rest.length := by omega
      have := ih (m + symArity s) h'
      simp only [List.take_succ_cons, bal_cons]
      omega

theorem takeCount_prefix_pos :
    ∀ (l : List (Symbol V O)) (n d : Nat), d < takeCount l n →
      -(n : Int) < bal (l.take d) := by
  intro l
  induction l with
  | nil =>
    intro n d h
    cases n with
    | zero => simp [takeCount] at h
    | succ m =>
      simp only [takeCount] at h
      simp [bal]
      omega
  | cons s rest ih =>
    intro n d h
    cases n with
    | zero => simp [takeCount] at h
    | succ m =>
      simp only [takeCount] at h
      cases d with
      | zero =>
        simp [bal]
        omega
      | succ e =>
        have he : e < takeCount rest (m + symArity s) := by omega
        have := ih (m + symArity s) e he
        simp only [List.take_succ_cons, bal_cons]
        omega

theorem takeCount_min :
    ∀ (l : List (Symbol V O)) (n d : Nat), d ≤ l.length →
      bal (l.take d) = -(n : Int) → takeCount l n ≤ d := by
  intro l
  induction l with
  | nil =>
    intro n d hd hb
    simp at hd
    subst hd
    simp [bal] at hb
    have : n = 0 := by omega
    subst this
    simp [takeCount]
  | cons s rest ih =>
    intro n d hd hb
    cases n with
    | zero => simp [takeCount]
    | succ m =>
      cases d with
      | zero =>
        simp [bal] at hb
        omega
      | succ e =>
        simp only [List.take_succ_cons, bal_cons] at hb
        simp only [List.length_cons] at hd
        have he : bal (rest.take e) = -((m + symArity s : Nat) : Int) := by
          push_cast
          omega
        have := ih (m + symArity s) e (by omega) he
        simp only [takeCount]
        omega

theorem takeCount_block :
    ∀ (l1 l2 : List (Symbol V O)) (n : Nat), bal l1 = -(n : Int) →
      (∀ d, d < l1.length → -(n : Int) < bal (l1.take d)) →
      takeCount (l1 ++ l2) n = l1.length := by
  intro l1
  induction l1 with
  | nil =>
    intro l2 n hb _
    simp [bal] at hb
    have : n = 0 := by omega
    subst this
    simp [takeCount]
  | cons s rest ih =>
    intro l2 n hb hpre
    have hn : 0 < n := by
      have := hpre 0 (by simp)
      simp [bal] at this
      omega
    obtain ⟨m, rfl⟩ : ∃ m, n = m + 1 := ⟨n - 1, by omega⟩
    simp only [bal_cons] at hb
    have hb' : bal rest = -((m + symArity s : Nat) : Int) := by
      push_cast
      omega
    have hpre' : ∀ d, d < rest.length → -((m + symArity s : Nat) : Int) < bal (rest.take d) := by
      intro d hd
      have := hpre (d + 1) (by simp; omega)
      simp only [List.take_succ_cons, bal_cons] at this
      push_cast
      omega
    have := ih l2 (m + symArity s) hb' hpre'
    rw [List.cons_append]
    have hc : takeCount (s :: (rest ++ l2)) (m + 1) =
        takeCount (rest ++ l2) (m + symArity s) + 1 := by
      simp [takeCount, Nat.add_comm]
    rw [hc, this]
    simp

theorem exists_prefix_bal :
    ∀ (l : List (Symbol V O)) (n : Nat), 0 < n → bal l ≤ -(n : Int) →
      ∃ d, d ≤ l.length ∧ bal (l.take d) = -(n : Int) := by
  intro l
  induction l with
  | nil =>
    intro n hn hb
    simp [bal] at hb
    omega
  | cons s rest ih =>
    intro n hn hb
    obtain ⟨m, rfl⟩ : ∃ m, n = m + 1 := ⟨n - 1, by omega⟩
    simp only [bal_cons] at hb
    by_cases h0 : m + symArity s = 0
    · refine ⟨1, by simp, ?_⟩
      have ha : symArity s = 0 := by omega
      have hm : m = 0 := by omega
      subst hm
      simp [List.take_succ_cons, bal_cons, ha, bal]
    · have hb' : bal rest ≤ -((m + symArity s : Nat) : Int) := by
        push_cast
        omega
      obtain ⟨d, hd, hbd⟩ := ih (m + symArity s) (by omega) hb'
      refine ⟨d + 1, by simp; omega, ?_⟩
      simp only [List.take_succ_cons, bal_cons]
      push_cast at hbd ⊢
      omega

theorem seqComplete_nil (l : List (Symbol V O)) (h : SeqComplete 0 l) : l = [] := by
  by_contra hne
  have hlen : 0 < l.length := List.length_pos.mpr hne
  have := h.2 0 hlen
  simp [bal] at this

theorem complete_ne_nil {l : List (Symbol V O)} (h : Complete l) : l ≠ [] := by
  intro hnil
  subst hnil
  have := h.1
  simp [bal] at this

/-- Every subword the iterator actually yields is the prefix encoding of one
complete tree: the scan stops at the first position where the running
required-symbol count hits zero. -/
theorem subwordsAux_mem :
    ∀ (k : Nat) (l : List (Symbol V O)) (s : Word V O), s ∈ subwordsAux k l →
      Complete s.syms ∧ s.syms.length ≤ l.length := by
  intro k
  induction k with
  | zero => intro l s h; simp [subwordsAux] at h
  | succ k ih =>
    intro l s h
    simp only [subwordsAux] at h
    by_cases hc : takeCount l 1 ≤ l.length
    · rw [if_pos hc] at h
      rcases List.mem_cons.mp h with h1 | h2
      · subst h1
        have hlen : (l.take (takeCount l 1)).length = takeCount l 1 := by
          simp [List.length_take]
          omega
        refine ⟨⟨?_, ?_⟩, ?_⟩
        · have := takeCount_bal l 1 hc
          simpa using this
        · intro d hd
          rw [hlen] at hd
          rw [List.take_take]
          have hmin : min d (takeCount l 1) = d := by omega
          rw [hmin]
          have := takeCount_prefix_pos l 1 d hd
          simpa using this
        · simpa [hlen] using hc
      · have := ih (l.drop (takeCount l 1)) s h2
        refine ⟨this.1, le_trans this.2 ?_⟩
        simp [List.length_drop]
    · rw [if_neg hc] at h
      simp at h

theorem subwordsList_mem {w : Word V O} {s : Word V O} (h : s ∈ subwordsList w) :
    Complete s.syms ∧ s.syms.length < w.syms.length := by
  have hbase := subwordsAux_mem _ (w.syms.drop 1) s h
  refine ⟨hbase.1, ?_⟩
  have hne : w.syms ≠ [] := by
    intro hnil
    rw [subwordsList, hnil] at h
    simp [subwordsAux] at h
  have hlen : (w.syms.drop 1).length = w.syms.length - 1 := by
    simp [List.length_drop]
  have hpos : 0 < w.syms.length := List.length_pos.mpr hne
  have hne2 : s.syms ≠ [] := complete_ne_nil hbase.1
  have : 0 < s.syms.length := List.length_pos.mpr hne2
  omega

theorem subwordsAux_sum_le :
    ∀ (k : Nat) (l : List (Symbol V O)),
      ((subwordsAux k l).map (fun s => s.syms.length)).sum ≤ l.length := by
  intro k
  induction k with
  | zero => intro l; simp [subwordsAux]
  | succ k ih =>
    intro l
    simp only [subwordsAux]
    by_cases hc : takeCount l 1 ≤ l.length
    · rw [if_pos hc]
      have h1 : (l.take (takeCount l 1)).length = takeCount l 1 := by
        simp [List.length_take]; omega
      have h2 := ih (l.drop (takeCount l 1))
      simp only [List.map_cons, List.sum_cons, h1]
      have h3 : (l.drop (takeCount l 1)).length = l.length - takeCount l 1 := by
        simp [List.length_drop]
      omega
    · rw [if_neg hc]; simp

theorem subwordsList_sum_lt {w : Word V O} (hne : w.syms ≠ []) :
    ((subwordsList w).map (fun s => s.syms.length)).sum < w.syms.length := by
  have := subwordsAux_sum_le
    (V := V) (O := O)
    (match w.syms.head? with | some s => symArity s | none => 0) (w.syms.drop 1)
  have hlen : (w.syms.drop 1).length = w.syms.length - 1 := by
    simp [List.length_drop]
  have hpos : 0 < w.syms.length := List.length_pos.mpr hne
  rw [subwordsList]
  omega

/-- Splitting one complete prefix off a (k+1)-sequence-complete list. -/
theorem seqComplete_split {k : Nat} {l : List (Symbol V O)}
    (h : SeqComplete (k + 1) l) :
    takeCount l 1 ≤ l.length ∧ Complete (l.take (takeCount l 1)) ∧
      SeqComplete k (l.drop (takeCount l 1)) := by
  obtain ⟨hbal, hpre⟩ := h
  have hex : ∃ d, d ≤ l.length ∧ bal (l.take d) = -(1 : Int) := by
    have := exists_prefix_bal l 1 (by omega) (by push_cast at hbal ⊢; omega)
    simpa using this
  obtain ⟨d0, hd0, hb0⟩ := hex
  have hcle : takeCount l 1 ≤ d0 := takeCount_min l 1 d0 hd0 (by simpa using hb0)
  have hc : takeCount l 1 ≤ l.length := le_trans hcle hd0
  set c := takeCount l 1 with hcdef
  have hclen : (l.take c).length = c := by simp [List.length_take]; omega
  have hcompl : Complete (l.take c) := by
    refine ⟨?_, ?_⟩
    · have := takeCount_bal l 1 hc
      simpa using this
    · intro d hd
      rw [hclen] at hd
      rw [List.take_take]
      have hmin : min d c = d := by omega
      rw [hmin]
      have := takeCount_prefix_pos l 1 d hd
      simpa using this
  refine ⟨hc, hcompl, ?_, ?_⟩
  · have hsplit : l = l.take c ++ l.drop c := (List.take_append_drop c l).symm
    have := bal_append (l.take c) (l.drop c)
    rw [← hsplit] at this
    have hbc : bal (l.take c) = -1 := hcompl.1
    push_cast at hbal ⊢
    omega
  · intro e he
    have hdlen : (l.drop c).length = l.length - c := by simp [List.length_drop]
    have htk : (l.drop c).take e = (l.take (c + e)).drop c := by
      rw [List.drop_take]
      congr 1
      omega
    have hsplit : l.take (c + e) = l.take c ++ (l.take (c + e)).drop c := by
      have : (l.take (c + e)).take c = l.take c := by
        rw [List.take_take]
        congr 1
        omega
      conv_lhs => rw [← List.take_append_drop c (l.take (c + e))]
      rw [this]
    have hbale : bal (l.take (c + e)) = bal (l.take c) + bal ((l.take (c + e)).drop c) := by
      conv_lhs => rw [hsplit]
      exact bal_append _ _
    have hce : c + e < l.length := by omega
    have hp := hpre (c + e) hce
    rw [← htk] at hbale
    have hbc : bal (l.take c) = -1 := hcompl.1
    push_cast at hp ⊢
    omega

/-- On a k-sequence-complete list the iterator yields exactly k subwords
whose symbol lists concatenate back to the input. -/
theorem subwordsAux_partition :
    ∀ (k : Nat) (l : List (Symbol V O)), SeqComplete k l →
      ((subwordsAux k l).map Word.syms).flatten = l ∧ (subwordsAux k l).length = k := by
  intro k
  induction k with
  | zero =>
    intro l h
    have := seqComplete_nil l h
    subst this
    simp [subwordsAux]
  | succ k ih =>
    intro l h
    obtain ⟨hc, hcompl, hrest⟩ := seqComplete_split h
    have := ih (l.drop (takeCount l 1)) hrest
    simp only [subwordsAux, if_pos hc, List.map_cons, List.flatten_cons, List.length_cons]
    rw [this.1, this.2]
    simp [List.take_append_drop]

/-- A complete encoding that starts with a variable is that single
variable. -/
theorem complete_var {v : V} {t : List (Symbol V O)}
    (h : Complete (Symbol.var v :: t)) : t = [] := by
  by_contra hne
  have hbal := h.1
  rw [bal_cons] at hbal
  simp [symArity] at hbal
  have h1 := h.2 1 (by simp [List.length_cons]; exact List.length_pos.mpr hne)
  simp only [List.take_succ_cons, List.take_zero] at h1
  rw [bal_cons, bal_nil] at h1
  simp [symArity] at h1

/-- Dropping the operator from a complete encoding leaves an
arity-many-sequence-complete tail. -/
theorem complete_op {f : O} {t : List (Symbol V O)}
    (h : Complete (Symbol.op f :: t)) : SeqComplete (Operator.arity f) t := by
  obtain ⟨hbal, hpre⟩ := h
  rw [bal_cons] at hbal
  simp only [symArity] at hbal
  constructor
  · push_cast at hbal ⊢
    omega
  · intro d hd
    have := hpre (d + 1) (by simp; omega)
    simp only [List.take_succ_cons, bal_cons, symArity] at this
    push_cast at this ⊢
    omega

theorem subwordsList_cons (s : Symbol V O) (t : List (Symbol V O)) :
    subwordsList (⟨s :: t⟩ : Word V O) = subwordsAux (symArity s) t := by
  simp [subwordsList]

/-- For a complete operator-headed word the iterator yields exactly the
argument encodings, partitioning the tail. -/
theorem subwordsList_partition {f : O} {t : List (Symbol V O)}
    (h : Complete (Symbol.op f :: t)) :
    ((subwordsList (⟨Symbol.op f :: t⟩ : Word V O)).map Word.syms).flatten = t ∧
      (subwordsList (⟨Symbol.op f :: t⟩ : Word V O)).length = Operator.arity f := by
  rw [subwordsList_cons]
  exact subwordsAux_partition (symArity (Symbol.op f)) t (by
    simpa [symArity] using complete_op h)

theorem lexCmpWith_congr (r1 r2 : Word V O → Word V O → Option Ordering) :
    ∀ (xs ys : List (Word V O)),
      (∀ x ∈ xs, ∀ y ∈ ys, r1 x y = r2 x y) →
      lexCmpWith r1 xs ys = lexCmpWith r2 xs ys := by
  intro xs
  induction xs with
  | nil => intro ys h; cases ys <;> rfl
  | cons x xs ih =>
    intro ys h
    cases ys with
    | nil => rfl
    | cons y ys =>
      simp only [lexCmpWith]
      rw [h x (by simp) y (by simp)]
      have := ih ys (fun a ha b hb => h a (by simp [ha]) b (by simp [hb]))
      rw [this]

theorem pcStep_congr (a b : Word V O) (r1 r2 : Word V O → Word V O → Option Ordering)
    (h : ∀ x ∈ subwordsList a, ∀ y ∈ subwordsList b, r1 x y = r2 x y) :
    pcStep r1 a b = pcStep r2 a b := by
  unfold pcStep
  split
  · rfl
  split
  · split
    · split
      · rfl
      · rfl
      · rfl
      · split
        · rfl
        split
        · exact lexCmpWith_congr r1 r2 _ _ h
        · rfl
      · rfl
    · rfl
  · rfl

theorem partialCmpF_mono :
    ∀ (n m : Nat) (a b : Word V O), a.syms.length + b.syms.length < n →
      a.syms.length + b.syms.length < m → partialCmpF n a b = partialCmpF m a b := by
  intro n
  induction n using Nat.strong_induction_on with
  | _ n ih =>
    intro m a b hn hm
    obtain ⟨n', rfl⟩ : ∃ n', n = n' + 1 := ⟨n - 1, by omega⟩
    obtain ⟨m', rfl⟩ : ∃ m', m = m' + 1 := ⟨m - 1, by omega⟩
    simp only [partialCmpF]
    apply pcStep_congr
    intro x hx y hy
    have hxl := subwordsList_mem hx
    have hyl := subwordsList_mem hy
    exact ih n' (by omega) m' x y (by omega) (by omega)

/-- The recursive equation of partial_cmp: one level of the source
definition with partialCmp itself in the subword comparisons. -/
theorem partialCmp_unfold (a b : Word V O) :
    partialCmp a b = pcStep partialCmp a b := by
  unfold partialCmp
  simp only [partialCmpF]
  apply pcStep_congr
  intro x hx y hy
  have hxl := subwordsList_mem hx
  have hyl := subwordsList_mem hy
  exact partialCmpF_mono (a.syms.length + b.syms.length)
    (x.syms.length + y.syms.length + 1) x y (by omega) (by omega)

theorem unifyPairsWith_congr (r1 r2 : Word V O → Word V O → Option (VMap V O)) :
    ∀ (ps : List (Word V O × Word V O)) (m : VMap V O),
      (∀ p ∈ ps, r1 p.1 p.2 = r2 p.1 p.2) →
      unifyPairsWith r1 ps m = unifyPairsWith r2 ps m := by
  intro ps
  induction ps with
  | nil => intro m h; rfl
  | cons p ps ih =>
    intro m h
    obtain ⟨s, t⟩ := p
    have h1 : r1 s t = r2 s t := h (s, t) (by simp)
    cases hr : r2 s t with
    | none => simp only [unifyPairsWith, h1, hr]
    | some sub =>
      cases hm2 : mergeSubst m sub with
      | none => simp only [unifyPairsWith, h1, hr, hm2]
      | some m2 =>
        simp only [unifyPairsWith, h1, hr, hm2]
        exact ih m2 (fun q hq => h q (by simp [hq]))

theorem uStep_congr (a b : Word V O) (r1 r2 : Word V O → Word V O → Option (VMap V O))
    (h : ∀ x ∈ subwordsList a, ∀ y ∈ subwordsList b, r1 x y = r2 x y) :
    uStep r1 a b = uStep r2 a b := by
  unfold uStep
  split
  · rfl
  · split
    · apply unifyPairsWith_congr
      intro p hp
      have := List.of_mem_zip hp
      exact h p.1 this.1 p.2 this.2
    · rfl
  · rfl

theorem unifyF_mono :
    ∀ (n m : Nat) (a b : Word V O), a.syms.length + b.syms.length < n →
      a.syms.length + b.syms.length < m → unifyF n a b = unifyF m a b := by
  intro n
  induction n using Nat.strong_induction_on with
  | _ n ih =>
    intro m a b hn hm
    obtain ⟨n', rfl⟩ : ∃ n', n = n' + 1 := ⟨n - 1, by omega⟩
    obtain ⟨m', rfl⟩ : ∃ m', m = m' + 1 := ⟨m - 1, by omega⟩
    simp only [unifyF]
    apply uStep_congr
    intro x hx y hy
    have hxl := subwordsList_mem hx
    have hyl := subwordsList_mem hy
    exact ih n' (by omega) m' x y (by omega) (by omega)

/-- The recursive equation of Word::unify. -/
theorem unify_unfold (a b : Word V O) : unify a b = uStep unify a b := by
  unfold unify
  simp only [unifyF]
  apply uStep_congr
  intro x hx y hy
  have hxl := subwordsList_mem hx
  have hyl := subwordsList_mem hy
  exact unifyF_mono (a.syms.length + b.syms.length)
    (x.syms.length + y.syms.length + 1) x y (by omega) (by omega)

/-- The stub completion loop moves the input worklist, popped from the back,
onto the rule list: the rules are exactly the axioms in reverse order. -/
theorem kbLoop_spec :
    ∀ (axs rules : List (Word V O × Word V O)),
      kbLoop axs rules = rules ++ axs.reverse := by
  intro axs
  induction axs using List.reverseRecOn with
  | nil => intro rules; rw [kbLoop]; simp
  | append_singleton l a ih =>
    intro rules
    rw [kbLoop]
    have h1 : (l ++ [a]).getLast? = some a := by
      simp [List.getLast?_append]
    have h2 : (l ++ [a]).dropLast = l := by
      simp
    rw [h1]
    simp only
    rw [h2, ih]
    simp

/-- C9: for every input axiom list, knuth_bendix returns Some of exactly the
input axiom pairs, unmodified and unoriented, in reverse of input order; it
performs no normalization, orientation, simplification or superposition,
and never yields a Stuck or GaveUp outcome. -/
theorem C9_knuth_bendix_reverse (axs : List (Word V O × Word V O)) :
    knuth_bendix axs = some axs.reverse := by
  rw [knuth_bendix, kbLoop_spec]
  simp

/-- C3: the claim that every rule returned by the completion entry point
satisfies lhs strictly Greater than rhs fails on the code: the stub loop
returns the axiom (x, x*1) as a rule although its left-hand side compares
Less than its right-hand side. -/
theorem C3_stub_returns_unoriented_rule :
    knuth_bendix [(Word.var 0, Word.op 2 [Word.var 0, Word.op 0 []])] =
      some [((Word.var 0 : Word Nat Nat), Word.op 2 [Word.var 0, Word.op 0 []])] ∧
    partialCmp (Word.var 0 : Word Nat Nat) (Word.op 2 [Word.var 0, Word.op 0 []]) =
      some Ordering.lt := by
  constructor
  · rw [knuth_bendix, kbLoop_spec]
    rfl
  · decide

/-- C4 counterexample: Word::op performs no arity check; applied to a binary
operator and an empty argument list it does produce a Word, and that Word is
not well-formed. -/
theorem C4_counterexample :
    (Word.op 2 ([] : List (Word Nat Nat))) = (⟨[Symbol.op 2]⟩ : Word Nat Nat) ∧
    isWF (Word.op 2 ([] : List (Word Nat Nat))) = false := by
  decide

theorem bal_flatten_wf {args : List (Word V O)}
    (h : ∀ w ∈ args, isWF w = true) :
    bal ((args.map Word.syms).flatten) = -(args.length : Int) := by
  induction args with
  | nil => simp [bal]
  | cons a rest ih =>
    have ha : isWF a = true := h a (by simp)
    have hrest := ih (fun w hw => h w (by simp [hw]))
    have hbal : bal a.syms = -1 := by
      have := of_decide_eq_true ha
      omega
    simp only [List.map_cons, List.flatten_cons, bal_append, hbal, hrest,
      List.length_cons]
    push_cast
    omega

/-- C4 amended: Word::var always yields a well-formed word, and Word::op —
which performs no validation and never fails — yields a well-formed word
from well-formed arguments exactly when the argument count equals the
operator's arity. -/
theorem C4_op_wf_iff_arity :
    (∀ v : V, isWF (Word.var (O := O) v) = true) ∧
    (∀ (f : O) (args : List (Word V O)), (∀ w ∈ args, isWF w = true) →
      (isWF (Word.op f args) = true ↔ args.length = Operator.arity f)) := by
  constructor
  · intro v
    rw [isWF, decide_eq_true_iff, Word.var]
    rw [bal_cons, bal_nil]
    simp [symArity]
  · intro f args h
    have hflat := bal_flatten_wf h
    rw [isWF, decide_eq_true_iff]
    rw [Word.op]
    simp only [bal_cons, symArity, hflat]
    constructor
    · intro heq
      omega
    · intro heq
      omega

/-- C4 witness: a binary operator applied to two well-formed arguments of
matching count yields a well-formed word. -/
theorem C4_witness :
    (∀ w ∈ [Word.var 0, Word.op 0 []], isWF (V := Nat) (O := Nat) w = true) ∧
    isWF (Word.op 2 [Word.var 0, Word.op 0 []] : Word Nat Nat) = true := by
  refine ⟨by decide, ?_⟩
  exact (C4_op_wf_iff_arity.2 2 [Word.var 0, Word.op 0 []] (by decide)).mpr (by decide)

theorem encodeTree_node (f : O) (ts : List (Tree V O)) :
    encodeTree (Tree.node f ts) = Symbol.op f :: (ts.map encodeTree).flatten := by
  rw [encodeTree]
  congr 1
  congr 1
  simp

theorem bal_flatten_neg_one :
    ∀ (ls : List (List (Symbol V O))), (∀ l ∈ ls, bal l = -1) →
      bal ls.flatten = -(ls.length : Int) := by
  intro ls
  induction ls with
  | nil => intro h; simp [bal]
  | cons l rest ih =>
    intro h
    have h1 := h l (by simp)
    have h2 := ih (fun l2 hl2 => h l2 (by simp [hl2]))
    simp only [List.flatten_cons, bal_append, h1, h2, List.length_cons]
    push_cast
    omega

theorem bal_encodeTree : ∀ (t : Tree V O), WFTree t → bal (encodeTree t) = -1 := by
  intro t h
  induction h with
  | var v => simp [encodeTree, bal, symArity]
  | node f ts hlen hwf ih =>
    rw [encodeTree_node, bal_cons]
    have hflat : bal ((ts.map encodeTree).flatten) = -(((ts.map encodeTree).length : Nat) : Int) := by
      apply bal_flatten_neg_one
      intro l hl
      obtain ⟨t2, ht2, rfl⟩ := List.mem_map.mp hl
      exact ih t2 ht2
    rw [List.length_map] at hflat
    rw [hflat]
    simp only [symArity]
    rw [hlen]
    omega

/-- C5 counterexample: the sequence consisting of a variable followed by a
unary operator passes is_well_formed (its arity balance is zero-sum) but
does not decode in prefix order to one complete tree: the leading variable
already completes a tree, leaving a dangling operator symbol. -/
theorem C5_counterexample :
    isWF (⟨[Symbol.var 0, Symbol.op 1]⟩ : Word Nat Nat) = true ∧
    ¬∃ t : Tree Nat Nat, WFTree t ∧ encodeTree t = [Symbol.var 0, Symbol.op 1] := by
  constructor
  · decide
  · rintro ⟨t, _, henc⟩
    cases t with
    | var v => simp [encodeTree] at henc
    | node f ts => rw [encodeTree_node] at henc; simp at henc

/-- C5 amended: every symbol sequence that decodes in prefix order to
exactly one complete tree passes is_well_formed, but the converse fails
(is_well_formed checks only the arity balance sum, which ignores early
completion of the tree). -/
theorem C5_decode_implies_wf (t : Tree V O) (h : WFTree t) :
    isWF (⟨encodeTree t⟩ : Word V O) = true := by
  rw [isWF, decide_eq_true_iff]
  have := bal_encodeTree t h
  simp only
  omega

/-- C5 witness: the encoding of the complete tree 2(0, 1) is well-formed. -/
theorem C5_witness :
    WFTree (Tree.node (2 : Nat) [Tree.var (0 : Nat), Tree.var 1]) ∧
    isWF (⟨encodeTree (Tree.node (2 : Nat) [Tree.var (0 : Nat), Tree.var 1])⟩ :
      Word Nat Nat) = true := by
  have hw : WFTree (Tree.node (2 : Nat) [Tree.var (0 : Nat), Tree.var 1]) := by
    apply WFTree.node
    · decide
    · intro t ht
      simp at ht
      rcases ht with rfl | rfl
      · exact WFTree.var 0
      · exact WFTree.var 1
  exact ⟨hw, C5_decode_implies_wf _ hw⟩

/-- C7: unifying a single-variable word with any non-empty word immediately
yields the one-entry substitution binding that variable to the whole other
word, with no occurs-check: the result is the same even when the other word
contains the variable itself. -/
theorem C7_var_binds (v : V) (b : Word V O) (h : b.syms ≠ []) :
    unify (Word.var v) b = some [(v, b)] := by
  rw [unify_unfold]
  obtain ⟨s, rest, hb⟩ := List.exists_cons_of_ne_nil h
  unfold uStep
  rw [Word.var]
  simp [hb]

/-- C7 witness: the variable x unifies with inv(x), binding x to a word that
contains x itself. -/
theorem C7_witness :
    (Word.op 1 [Word.var 0] : Word Nat Nat).syms ≠ [] ∧
    unify (Word.var 0 : Word Nat Nat) (Word.op 1 [Word.var 0]) =
      some [(0, Word.op 1 [Word.var 0])] :=
  ⟨by decide, C7_var_binds 0 (Word.op 1 [Word.var 0]) (by decide)⟩

theorem bal_substSyms {m : VMap V O} (hm : ∀ p ∈ m, isWF p.2 = true) :
    ∀ l : List (Symbol V O), bal (substSyms l m) = bal l := by
  intro l
  induction l with
  | nil => rfl
  | cons s rest ih =>
    have hcons : substSyms (s :: rest) m =
        (match s with
          | .var v =>
            match mapGet m v with
            | some u => u.syms
            | none => [s]
          | .op _ => [s]) ++ substSyms rest m := by
      simp [substSyms]
    rw [hcons, bal_append, ih, bal_cons]
    cases s with
    | op f => simp [bal_cons, bal_nil]
    | var v =>
      cases hg : mapGet m v with
      | none => simp [hg, bal_cons, bal_nil, symArity]
      | some u =>
        simp only [hg]
        have hmem : ∃ p ∈ m, p.2 = u := by
          rw [mapGet] at hg
          obtain ⟨p, hp, hp2⟩ := Option.map_eq_some'.mp hg
          exact ⟨p, List.mem_of_find?_eq_some hp, hp2⟩
        obtain ⟨p, hp, rfl⟩ := hmem
        have := of_decide_eq_true (hm p hp)
        simp only [symArity]
        omega

/-- C10: substitution preserves well-formedness: substituting well-formed
words for variables in a well-formed word yields a well-formed word. -/
theorem C10_subst_preserves_wf (w : Word V O) (m : VMap V O)
    (hw : isWF w = true) (hm : ∀ p ∈ m, isWF p.2 = true) :
    isWF (subst w m) = true := by
  rw [isWF, decide_eq_true_iff, subst]
  simp only
  rw [bal_substSyms hm]
  have := of_decide_eq_true hw
  omega

/-- C10 witness: substituting the constant 0 for the variable x in x*y keeps
the word well-formed. -/
theorem C10_witness :
    isWF (Word.op 2 [Word.var 0, Word.var 1] : Word Nat Nat) = true ∧
    (∀ p ∈ [((0 : Nat), (Word.op 0 [] : Word Nat Nat))], isWF p.2 = true) ∧
    isWF (subst (Word.op 2 [Word.var 0, Word.var 1] : Word Nat Nat)
      [(0, Word.op 0 [])]) = true :=
  ⟨by decide, by decide,
    C10_subst_preserves_wf _ [(0, Word.op 0 [])] (by decide) (by decide)⟩

theorem mapGet_nil (v : V) : mapGet ([] : VMap V O) v = none := rfl

theorem mapGet_cons (k : V) (u : Word V O) (rest : VMap V O) (x : V) :
    mapGet ((k, u) :: rest) x = if k = x then some u else mapGet rest x := by
  by_cases h : k = x
  · simp [mapGet, List.find?, h]
  · simp only [mapGet, List.find?]
    rw [decide_eq_false h]
    simp [h]

theorem mapGet_insert (m : VMap V O) (v : V) (w : Word V O) (x : V) :
    mapGet (mapInsert m v w).1 x = if v = x then some w else mapGet m x := by
  induction m with
  | nil => simp [mapInsert, mapGet_cons, mapGet_nil]
  | cons p rest ih =>
    obtain ⟨k, u⟩ := p
    by_cases h1 : v < k
    · simp only [mapInsert, if_pos h1]
      rw [mapGet_cons]
    · by_cases h2 : v = k
      · simp only [mapInsert, if_neg h1, if_pos h2]
        subst h2
        rw [mapGet_cons, mapGet_cons]
        by_cases h3 : v = x
        · simp [h3]
        · simp [h3]
      · simp only [mapInsert, if_neg h1, if_neg h2]
        rw [mapGet_cons, mapGet_cons]
        by_cases h3 : k = x
        · subst h3
          have : ¬(v = k) := h2
          simp [this]
        · simp [h3, ih]

theorem mapGet_none_of_keys_gt (m : VMap V O) (v : V)
    (h : ∀ p ∈ m, v < p.1) : mapGet m v = none := by
  induction m with
  | nil => rfl
  | cons p rest ih =>
    obtain ⟨k, u⟩ := p
    rw [mapGet_cons]
    have hk : v < k := h (k, u) (by simp)
    rw [if_neg (by intro he; subst he; exact lt_irrefl _ hk)]
    exact ih (fun q hq => h q (by simp [hq]))

theorem mapInsert_old (m : VMap V O) (v : V) (w : Word V O) (hs : VSorted m) :
    (mapInsert m v w).2 = mapGet m v := by
  induction m with
  | nil => rfl
  | cons p rest ih =>
    obtain ⟨k, u⟩ := p
    rw [VSorted, List.pairwise_cons] at hs
    by_cases h1 : v < k
    · simp only [mapInsert, if_pos h1]
      rw [mapGet_cons, if_neg (by intro he; subst he; exact lt_irrefl _ h1)]
      rw [mapGet_none_of_keys_gt]
      intro q hq
      exact lt_trans h1 (hs.1 q hq)
    · by_cases h2 : v = k
      · subst h2
        simp only [mapInsert, if_neg h1, if_pos rfl, if_true]
        rw [mapGet_cons, if_pos rfl]
      · simp only [mapInsert, if_neg h1, if_neg h2]
        rw [mapGet_cons, if_neg (fun he => h2 he.symm)]
        exact ih hs.2

theorem mapInsert_mem (m : VMap V O) (v : V) (w : Word V O) :
    ∀ p ∈ (mapInsert m v w).1, p ∈ m ∨ p = (v, w) := by
  induction m with
  | nil =>
    intro p hp
    simp [mapInsert] at hp
    right
    exact hp
  | cons q rest ih =>
    obtain ⟨k, u⟩ := q
    intro p hp
    by_cases h1 : v < k
    · simp only [mapInsert, if_pos h1] at hp
      rcases List.mem_cons.mp hp with rfl | hp2
      · right; rfl
      · left; exact hp2
    · by_cases h2 : v = k
      · simp only [mapInsert, if_neg h1, if_pos h2] at hp
        rcases List.mem_cons.mp hp with rfl | hp2
        · right; rfl
        · left; simp [hp2]
      · simp only [mapInsert, if_neg h1, if_neg h2] at hp
        rcases List.mem_cons.mp hp with rfl | hp2
        · left; simp
        · rcases ih p hp2 with hin | heq
          · left; simp [hin]
          · right; exact heq

theorem mapInsert_sorted (m : VMap V O) (v : V) (w : Word V O) (hs : VSorted m) :
    VSorted (mapInsert m v w).1 := by
  induction m with
  | nil => simp [mapInsert, VSorted]
  | cons p rest ih =>
    obtain ⟨k, u⟩ := p
    rw [VSorted, List.pairwise_cons] at hs
    by_cases h1 : v < k
    · simp only [mapInsert, if_pos h1]
      rw [VSorted, List.pairwise_cons]
      refine ⟨?_, List.pairwise_cons.mpr hs⟩
      intro q hq
      rcases List.mem_cons.mp hq with rfl | hq2
      · exact h1
      · exact lt_trans h1 (hs.1 q hq2)
    · by_cases h2 : v = k
      · subst h2
        simp only [mapInsert, if_neg h1, if_pos rfl, if_true]
        rw [VSorted, List.pairwise_cons]
        exact ⟨hs.1, hs.2⟩
      · simp only [mapInsert, if_neg h1, if_neg h2]
        rw [VSorted, List.pairwise_cons]
        have hkv : k < v := by
          rcases lt_trichotomy v k with h | h | h
          · exact absurd h h1
          · exact absurd h h2
          · exact h
        refine ⟨?_, ih hs.2⟩
        intro q hq
        rcases mapInsert_mem rest v w q hq with hin | rfl
        · exact hs.1 q hin
        · exact hkv

theorem mem_vars {a : Word V O} {v : V} : v ∈ vars a ↔ Symbol.var v ∈ a.syms := by
  rw [vars, List.mem_filterMap]
  constructor
  · rintro ⟨s, hs, hf⟩
    cases s with
    | var v2 => simp at hf; subst hf; exact hs
    | op f => simp at hf
  · intro h
    exact ⟨Symbol.var v, h, rfl⟩

theorem nOcc_pos_iff {a : Word V O} {v : V} :
    0 < nOcc a v ↔ Symbol.var v ∈ a.syms := by
  rw [nOcc, List.countP_pos]
  constructor
  · rintro ⟨s, hs, hp⟩
    have := of_decide_eq_true hp
    subst this
    exact hs
  · intro h
    exact ⟨Symbol.var v, h, by simp⟩

theorem nGeAll_iff {a b : Word V O} :
    nGeAll a b = true ↔ ∀ v, nOcc b v ≤ nOcc a v := by
  rw [nGeAll, List.all_eq_true]
  constructor
  · intro h v
    by_cases hv : Symbol.var v ∈ a.syms ∨ Symbol.var v ∈ b.syms
    · have hm : v ∈ vars a ++ vars b := by
        rw [List.mem_append, mem_vars, mem_vars]
        exact hv
      exact of_decide_eq_true (h v hm)
    · push_neg at hv
      have h1 : nOcc b v = 0 := by
        by_contra hne
        exact hv.2 (nOcc_pos_iff.mp (Nat.pos_of_ne_zero hne))
      omega
  · intro h v _
    exact decide_eq_true (h v)

theorem nLeAll_iff {a b : Word V O} :
    nLeAll a b = true ↔ ∀ v, nOcc a v ≤ nOcc b v := by
  rw [nLeAll, List.all_eq_true]
  constructor
  · intro h v
    by_cases hv : Symbol.var v ∈ a.syms ∨ Symbol.var v ∈ b.syms
    · have hm : v ∈ vars a ++ vars b := by
        rw [List.mem_append, mem_vars, mem_vars]
        exact hv
      exact of_decide_eq_true (h v hm)
    · push_neg at hv
      have h1 : nOcc a v = 0 := by
        by_contra hne
        exact hv.1 (nOcc_pos_iff.mp (Nat.pos_of_ne_zero hne))
      omega
  · intro h v _
    exact decide_eq_true (h v)

theorem nEqAll_iff {a b : Word V O} :
    nEqAll a b = true ↔ ∀ v, nOcc a v = nOcc b v := by
  rw [nEqAll, List.all_eq_true]
  constructor
  · intro h v
    by_cases hv : Symbol.var v ∈ a.syms ∨ Symbol.var v ∈ b.syms
    · have hm : v ∈ vars a ++ vars b := by
        rw [List.mem_append, mem_vars, mem_vars]
        exact hv
      exact of_decide_eq_true (h v hm)
    · push_neg at hv
      have h1 : nOcc a v = 0 := by
        by_contra hne
        exact hv.1 (nOcc_pos_iff.mp (Nat.pos_of_ne_zero hne))
      have h2 : nOcc b v = 0 := by
        by_contra hne
        exact hv.2 (nOcc_pos_iff.mp (Nat.pos_of_ne_zero hne))
      omega
  · intro h v _
    exact decide_eq_true (h v)

theorem lexCmpWith_eq_iff (cmp : Word V O → Word V O → Option Ordering) :
    ∀ xs ys : List (Word V O),
      (lexCmpWith cmp xs ys = some Ordering.eq ↔
        xs.length = ys.length ∧ ∀ q ∈ xs.zip ys, cmp q.1 q.2 = some Ordering.eq) := by
  intro xs
  induction xs with
  | nil =>
    intro ys
    cases ys with
    | nil => simp [lexCmpWith]
    | cons y ys => simp [lexCmpWith]
  | cons x xs ih =>
    intro ys
    cases ys with
    | nil => simp [lexCmpWith]
    | cons y ys =>
      simp only [lexCmpWith]
      cases hc : cmp x y with
      | none => simp [List.zip_cons_cons]; intro h; rw [hc]; simp
      | some o =>
        cases o with
        | eq =>
          rw [ih ys]
          simp only [List.length_cons, List.zip_cons_cons, List.mem_cons]
          constructor
          · rintro ⟨hlen, hall⟩
            refine ⟨by omega, ?_⟩
            rintro q (rfl | hq)
            · exact hc
            · exact hall q hq
          · rintro ⟨hlen, hall⟩
            exact ⟨by omega, fun q hq => hall q (Or.inr hq)⟩
        | lt =>
          simp only [List.zip_cons_cons, List.mem_cons]
          constructor
          · intro h; cases h
          · rintro ⟨hlen, hall⟩
            have := hall (x, y) (Or.inl rfl)
            rw [hc] at this
            cases this
        | gt =>
          simp only [List.zip_cons_cons, List.mem_cons]
          constructor
          · intro h; cases h
          · rintro ⟨hlen, hall⟩
            have := hall (x, y) (Or.inl rfl)
            rw [hc] at this
            cases this

theorem list_eq_of_zip {α : Type} :
    ∀ xs ys : List α, xs.length = ys.length → (∀ q ∈ xs.zip ys, q.1 = q.2) →
      xs = ys := by
  intro xs
  induction xs with
  | nil => intro ys h _; cases ys with | nil => rfl | cons y ys => simp at h
  | cons x xs ih =>
    intro ys hlen hall
    cases ys with
    | nil => simp at hlen
    | cons y ys =>
      have h1 : x = y := hall (x, y) (by simp)
      have h2 : xs = ys := by
        apply ih ys (by simpa using hlen)
        intro q hq
        exact hall q (by simp [hq])
      rw [h1, h2]

theorem nOcc_single_var (v : V) : nOcc (⟨[Symbol.var v]⟩ : Word V O) v = 1 := by
  simp [nOcc]

theorem word_shape {a : Word V O} (h : a.syms ≠ []) :
    ∃ s t, a = ⟨s :: t⟩ := by
  cases hl : a.syms with
  | nil => exact absurd hl h
  | cons s t =>
    refine ⟨s, t, ?_⟩
    rw [← hl]

/-- On genuine single-tree encodings, the ordering's Equal outcome is plain
syntactic identity. -/
theorem pcmp_eq_imp_eq :
    ∀ (n : Nat), ∀ (a b : Word V O), a.syms.length ≤ n →
      Complete a.syms → Complete b.syms →
      partialCmp a b = some Ordering.eq → a = b := by
  intro n
  induction n using Nat.strong_induction_on with
  | _ n ih =>
    intro a b hn ha hb heq
    obtain ⟨sa, ta, rfl⟩ := word_shape (complete_ne_nil ha)
    obtain ⟨sb, tb, rfl⟩ := word_shape (complete_ne_nil hb)
    rw [partialCmp_unfold] at heq
    unfold pcStep at heq
    simp only [List.head?_cons] at heq
    cases sa with
    | var v =>
      cases sb with
      | var v2 =>
        have hta : ta = [] := complete_var ha
        have htb : tb = [] := complete_var hb
        subst hta
        subst htb
        by_cases hv : v = v2
        · rw [hv]
        · exfalso
          split at heq
          · split at heq <;> simp at heq
          · split at heq
            · split at heq
              · rename_i hcnt
                have hc := nEqAll_iff.mp hcnt v
                rw [nOcc_single_var] at hc
                have hmem : Symbol.var v ∈ (⟨[Symbol.var v2]⟩ : Word V O).syms := by
                  apply nOcc_pos_iff.mp
                  omega
                simp at hmem
                exact hv hmem
              · simp at heq
            · split at heq <;> simp at heq
      | op g =>
        exfalso
        split at heq
        · split at heq <;> simp at heq
        · split at heq
          · split at heq
            · simp at heq
            · simp at heq
          · split at heq <;> simp at heq
    | op f =>
      cases sb with
      | var v2 =>
        exfalso
        split at heq
        · split at heq <;> simp at heq
        · split at heq
          · split at heq
            · simp at heq
            · simp at heq
          · split at heq <;> simp at heq
      | op g =>
        split at heq
        · split at heq <;> simp at heq
        · split at heq
          · split at heq
            · simp only [] at heq
              split at heq
              · simp at heq
              · split at heq
                · rename_i hfg
                  subst hfg
                  have hpa := subwordsList_partition ha
                  have hpb := subwordsList_partition hb
                  obtain ⟨hlen, hall⟩ := (lexCmpWith_eq_iff partialCmp _ _).mp heq
                  have hsub : subwordsList (⟨Symbol.op f :: ta⟩ : Word V O) =
                      subwordsList (⟨Symbol.op f :: tb⟩ : Word V O) := by
                    apply list_eq_of_zip _ _ hlen
                    intro q hq
                    obtain ⟨hq1, hq2⟩ := List.of_mem_zip hq
                    have hm1 := subwordsList_mem hq1
                    have hm2 := subwordsList_mem hq2
                    simp only [List.length_cons] at hm1 hn
                    exact ih (n - 1) (by omega) q.1 q.2 (by omega) hm1.1 hm2.1
                      (hall q hq)
                  have hta2 : ta = tb := by
                    rw [← hpa.1, ← hpb.1, hsub]
                  rw [hta2]
                · simp at heq
            · simp at heq
          · split at heq <;> simp at heq

theorem wordEqb_iff {a b : Word V O} :
    wordEqb a b = true ↔ partialCmp a b = some Ordering.eq := by
  rw [wordEqb, decide_eq_true_iff]

theorem mapGet_mem {m : VMap V O} {v : V} {u : Word V O}
    (h : mapGet m v = some u) : (v, u) ∈ m := by
  rw [mapGet] at h
  obtain ⟨p, hp, hp2⟩ := Option.map_eq_some'.mp h
  have hmem := List.mem_of_find?_eq_some hp
  have hpred := List.find?_some hp
  have h1 : p.1 = v := of_decide_eq_true hpred
  have : p = (v, u) := by
    obtain ⟨p1, p2⟩ := p
    simp at h1 hp2
    rw [h1, hp2]
  rw [← this]
  exact hmem

theorem zip_pair_exists {α β : Type} :
    ∀ (xs : List α) (ys : List β), xs.length = ys.length →
      ∀ x ∈ xs, ∃ y, (x, y) ∈ xs.zip ys := by
  intro xs
  induction xs with
  | nil => intro ys _ x hx; simp at hx
  | cons x0 xs ih =>
    intro ys hlen x hx
    cases ys with
    | nil => simp at hlen
    | cons y0 ys =>
      rcases List.mem_cons.mp hx with rfl | hx2
      · exact ⟨y0, by simp⟩
      · obtain ⟨y, hy⟩ := ih ys (by simpa using hlen) x hx2
        exact ⟨y, by simp [hy]⟩

theorem substSyms_append (l1 l2 : List (Symbol V O)) (m : VMap V O) :
    substSyms (l1 ++ l2) m = substSyms l1 m ++ substSyms l2 m := by
  simp [substSyms]

theorem substSyms_cons (s : Symbol V O) (rest : List (Symbol V O)) (m : VMap V O) :
    substSyms (s :: rest) m =
      (match s with
        | Symbol.var v =>
          match mapGet m v with
          | some u => u.syms
          | none => [s]
        | Symbol.op _ => [s]) ++ substSyms rest m := by
  simp [substSyms]

theorem substSyms_congr {m1 m2 : VMap V O} :
    ∀ l : List (Symbol V O),
      (∀ v, Symbol.var v ∈ l → mapGet m1 v = mapGet m2 v) →
      substSyms l m1 = substSyms l m2 := by
  intro l
  induction l with
  | nil => intro _; rfl
  | cons s rest ih =>
    intro h
    have hrest := ih (fun v hv => h v (by simp [hv]))
    rw [substSyms_cons s rest m1, substSyms_cons s rest m2, hrest]
    cases s with
    | op f => rfl
    | var v =>
      have := h v (by simp)
      simp [this]

/-- Soundness invariant of the merge loop: on success the map stays sorted
with complete values, every existing binding survives unchanged, and every
merged entry is bound in the result. -/
theorem mergeSubst_inv :
    ∀ (entries : List (V × Word V O)) (m m' : VMap V O),
      mergeSubst m entries = some m' →
      VSorted m → (∀ p ∈ m, Complete p.2.syms) →
      (∀ e ∈ entries, Complete e.2.syms) →
      VSorted m' ∧ (∀ p ∈ m', Complete p.2.syms) ∧
      (∀ v u, mapGet m v = some u → mapGet m' v = some u) ∧
      (∀ e ∈ entries, mapGet m' e.1 = some e.2) := by
  intro entries
  induction entries with
  | nil =>
    intro m m' hm hs hc _
    simp only [mergeSubst, Option.some.injEq] at hm
    subst hm
    exact ⟨hs, hc, fun v u h => h, fun e he => absurd he (List.not_mem_nil e)⟩
  | cons e rest ih =>
    intro m m' hm hs hc hce
    obtain ⟨v, w⟩ := e
    have hwc : Complete w.syms := hce (v, w) (by simp)
    have hold : (mapInsert m v w).2 = mapGet m v := mapInsert_old m v w hs
    have hs1 : VSorted (mapInsert m v w).1 := mapInsert_sorted m v w hs
    have hc1 : ∀ p ∈ (mapInsert m v w).1, Complete p.2.syms := by
      intro p hp
      rcases mapInsert_mem m v w p hp with hin | rfl
      · exact hc p hin
      · exact hwc
    simp only [mergeSubst] at hm
    rw [hold] at hm
    cases hg : mapGet m v with
    | none =>
      rw [hg] at hm
      simp only at hm
      obtain ⟨hs', hc', hpres, hent⟩ :=
        ih (mapInsert m v w).1 m' hm hs1 hc1
          (fun q hq => hce q (by simp [hq]))
      refine ⟨hs', hc', ?_, ?_⟩
      · intro x u hx
        apply hpres
        rw [mapGet_insert]
        by_cases hxv : v = x
        · subst hxv; rw [hg] at hx; cases hx
        · rw [if_neg hxv]; exact hx
      · intro q hq
        rcases List.mem_cons.mp hq with rfl | hq2
        · apply hpres
          rw [mapGet_insert, if_pos rfl]
        · exact hent q hq2
    | some ow =>
      rw [hg] at hm
      simp only at hm
      have howc : Complete ow.syms := by
        have := mapGet_mem hg
        exact hc (v, ow) this
      by_cases hb : wordEqb ow w = true
      · rw [if_pos hb] at hm
        have how : ow = w :=
          pcmp_eq_imp_eq ow.syms.length ow w le_rfl howc hwc (wordEqb_iff.mp hb)
        subst how
        obtain ⟨hs', hc', hpres, hent⟩ :=
          ih (mapInsert m v ow).1 m' hm hs1 hc1
            (fun q hq => hce q (by simp [hq]))
        refine ⟨hs', hc', ?_, ?_⟩
        · intro x u hx
          apply hpres
          rw [mapGet_insert]
          by_cases hxv : v = x
          · subst hxv
            rw [hg] at hx
            rw [if_pos rfl]
            exact hx
          · rw [if_neg hxv]; exact hx
        · intro q hq
          rcases List.mem_cons.mp hq with rfl | hq2
          · apply hpres
            rw [mapGet_insert, if_pos rfl]
          · exact hent q hq2
      · rw [if_neg hb] at hm
        cases hm

/-- Soundness invariant of the pairwise unification fold of the operator
case of unify. -/
theorem unifyPairs_inv :
    ∀ (ps : List (Word V O × Word V O)) (m0 s : VMap V O),
      unifyPairsWith unify ps m0 = some s →
      VSorted m0 → (∀ p ∈ m0, Complete p.2.syms) →
      (∀ q ∈ ps, ∀ sub, unify q.1 q.2 = some sub →
        VSorted sub ∧ (∀ p ∈ sub, Complete p.2.syms)) →
      VSorted s ∧ (∀ p ∈ s, Complete p.2.syms) ∧
      (∀ v u, mapGet m0 v = some u → mapGet s v = some u) ∧
      (∀ q ∈ ps, ∃ sub, unify q.1 q.2 = some sub ∧
        ∀ v u, mapGet sub v = some u → mapGet s v = some u) := by
  intro ps
  induction ps with
  | nil =>
    intro m0 s hu hs hc _
    simp only [unifyPairsWith, Option.some.injEq] at hu
    subst hu
    exact ⟨hs, hc, fun v u h => h, fun q hq => absurd hq (List.not_mem_nil q)⟩
  | cons q ps ih =>
    intro m0 s hu hs hc hsub
    obtain ⟨x, y⟩ := q
    simp only [unifyPairsWith] at hu
    cases hxy : unify x y with
    | none => rw [hxy] at hu; cases hu
    | some sub =>
      rw [hxy] at hu
      simp only at hu
      cases hmg : mergeSubst m0 sub with
      | none => rw [hmg] at hu; cases hu
      | some m1 =>
        rw [hmg] at hu
        simp only at hu
        have hsubinv := hsub (x, y) (by simp) sub hxy
        obtain ⟨hs1, hc1, hpres1, hent1⟩ :=
          mergeSubst_inv sub m0 m1 hmg hs hc (fun e he => hsubinv.2 e he)
        obtain ⟨hs', hc', hpres', hrest⟩ :=
          ih m1 s hu hs1 hc1 (fun q2 hq2 => hsub q2 (by simp [hq2]))
        refine ⟨hs', hc', ?_, ?_⟩
        · intro v u h
          exact hpres' v u (hpres1 v u h)
        · intro q2 hq2
          rcases List.mem_cons.mp hq2 with rfl | hq3
          · refine ⟨sub, hxy, ?_⟩
            intro v u h
            exact hpres' v u (hent1 (v, u) (mapGet_mem h))
          · exact hrest q2 hq3

theorem substSyms_flatten_zip (s : VMap V O) :
    ∀ (as bs : List (Word V O)), as.length = bs.length →
      (∀ q ∈ as.zip bs, substSyms q.1.syms s = q.2.syms) →
      substSyms ((as.map Word.syms).flatten) s = (bs.map Word.syms).flatten := by
  intro as
  induction as with
  | nil =>
    intro bs hlen _
    cases bs with
    | nil => rfl
    | cons b bs => simp at hlen
  | cons a as ih =>
    intro bs hlen hall
    cases bs with
    | nil => simp at hlen
    | cons b bs =>
      simp only [List.map_cons, List.flatten_cons, substSyms_append]
      rw [hall (a, b) (by simp)]
      rw [ih bs (by simpa using hlen) (fun q hq => hall q (by simp [hq]))]

/-- The main soundness invariant of unify on single-tree encodings: the
computed substitution is a sorted map of complete values binding every
variable of the left word, and applying it to the left word reproduces the
right word exactly. -/
theorem unify_inv :
    ∀ (n : Nat) (a b : Word V O) (s : VMap V O), a.syms.length ≤ n →
      Complete a.syms → Complete b.syms → unify a b = some s →
      VSorted s ∧ (∀ p ∈ s, Complete p.2.syms) ∧
      (∀ v, v ∈ vars a → ∃ u, mapGet s v = some u) ∧
      subst a s = b := by
  intro n
  induction n using Nat.strong_induction_on with
  | _ n ih =>
    intro a b s hn ha hb hu
    obtain ⟨sa, ta, rfl⟩ := word_shape (complete_ne_nil ha)
    obtain ⟨sb, tb, rfl⟩ := word_shape (complete_ne_nil hb)
    rw [unify_unfold] at hu
    unfold uStep at hu
    simp only [List.head?_cons] at hu
    cases sa with
    | var v =>
      have hta : ta = [] := complete_var ha
      subst hta
      simp only [Option.some.injEq] at hu
      subst hu
      refine ⟨?_, ?_, ?_, ?_⟩
      · simp [VSorted]
      · intro p hp
        simp at hp
        rw [hp]
        exact hb
      · intro v2 hv2
        rw [mem_vars] at hv2
        simp at hv2
        subst hv2
        refine ⟨⟨sb :: tb⟩, ?_⟩
        rw [mapGet_cons, if_pos rfl]
      · rw [subst]
        have hget : mapGet [(v, (⟨sb :: tb⟩ : Word V O))] v = some ⟨sb :: tb⟩ := by
          rw [mapGet_cons, if_pos rfl]
        simp [substSyms, hget]
    | op f =>
      cases sb with
      | var v2 =>
        simp only at hu
        cases hu
      | op g =>
        simp only at hu
        split at hu
        · rename_i hfg
          subst hfg
          have hpa := subwordsList_partition ha
          have hpb := subwordsList_partition hb
          have hlen : (subwordsList (⟨Symbol.op f :: ta⟩ : Word V O)).length =
              (subwordsList (⟨Symbol.op f :: tb⟩ : Word V O)).length := by
            rw [hpa.2, hpb.2]
          have hsubp : ∀ q ∈ (subwordsList (⟨Symbol.op f :: ta⟩ : Word V O)).zip
              (subwordsList (⟨Symbol.op f :: tb⟩ : Word V O)), ∀ sub,
              unify q.1 q.2 = some sub →
              VSorted sub ∧ (∀ p ∈ sub, Complete p.2.syms) := by
            intro q hq sub husub
            obtain ⟨hq1, hq2⟩ := List.of_mem_zip hq
            have hm1 := subwordsList_mem hq1
            have hm2 := subwordsList_mem hq2
            simp only [List.length_cons] at hm1 hn
            have := ih (n - 1) (by omega) q.1 q.2 sub (by omega) hm1.1 hm2.1 husub
            exact ⟨this.1, this.2.1⟩
          obtain ⟨hs', hc', _, hpair⟩ :=
            unifyPairs_inv _ [] s hu (by simp [VSorted]) (by simp) hsubp
          have hparg : ∀ q ∈ (subwordsList (⟨Symbol.op f :: ta⟩ : Word V O)).zip
              (subwordsList (⟨Symbol.op f :: tb⟩ : Word V O)),
              (∀ v, v ∈ vars q.1 → ∃ u, mapGet s v = some u) ∧
              substSyms q.1.syms s = q.2.syms := by
            intro q hq
            obtain ⟨hq1, hq2⟩ := List.of_mem_zip hq
            have hm1 := subwordsList_mem hq1
            have hm2 := subwordsList_mem hq2
            simp only [List.length_cons] at hm1 hn
            obtain ⟨sub, husub, hlift⟩ := hpair q hq
            obtain ⟨_, _, hcov, hsubst⟩ :=
              ih (n - 1) (by omega) q.1 q.2 sub (by omega) hm1.1 hm2.1 husub
            constructor
            · intro v hv
              obtain ⟨u, hu2⟩ := hcov v hv
              exact ⟨u, hlift v u hu2⟩
            · have hc2 : substSyms q.1.syms s = substSyms q.1.syms sub := by
                apply substSyms_congr
                intro v hv
                obtain ⟨u, hu2⟩ := hcov v (mem_vars.mpr hv)
                rw [hu2, hlift v u hu2]
              rw [hc2]
              have : (subst q.1 sub).syms = q.2.syms := by rw [hsubst]
              exact this
          refine ⟨hs', hc', ?_, ?_⟩
          · intro v hv
            rw [mem_vars] at hv
            simp only [List.mem_cons] at hv
            rcases hv with hv | hv
            · cases hv
            · rw [← hpa.1, List.mem_flatten] at hv
              obtain ⟨l, hl, hvl⟩ := hv
              rw [List.mem_map] at hl
              obtain ⟨x, hx, rfl⟩ := hl
              obtain ⟨y, hxy⟩ := zip_pair_exists _ _ hlen x hx
              exact (hparg (x, y) hxy).1 v (mem_vars.mpr hvl)
          · rw [subst]
            have hlist : substSyms (Symbol.op f :: ta) s = Symbol.op f :: tb := by
              rw [substSyms_cons]
              simp only
              rw [← hpa.1, ← hpb.1]
              rw [substSyms_flatten_zip s _ _ hlen
                (fun q hq => (hparg q hq).2)]
              simp
            rw [hlist]
        · cases hu

theorem lexCmpWith_refl (cmp : Word V O → Word V O → Option Ordering) :
    ∀ xs, (∀ x ∈ xs, cmp x x = some Ordering.eq) →
      lexCmpWith cmp xs xs = some Ordering.eq := by
  intro xs
  induction xs with
  | nil => intro _; rfl
  | cons x xs ih =>
    intro h
    simp only [lexCmpWith, h x (by simp)]
    exact ih (fun y hy => h y (by simp [hy]))

/-- partial_cmp is reflexively Equal on every non-empty word. -/
theorem pcmp_refl :
    ∀ (n : Nat) (a : Word V O), a.syms.length ≤ n → a.syms ≠ [] →
      partialCmp a a = some Ordering.eq := by
  intro n
  induction n using Nat.strong_induction_on with
  | _ n ih =>
    intro a hn hne
    obtain ⟨sa, ta, rfl⟩ := word_shape hne
    rw [partialCmp_unfold]
    unfold pcStep
    rw [if_neg (lt_irrefl _), if_pos rfl,
      if_pos (nEqAll_iff.mpr (fun v => rfl))]
    simp only [List.head?_cons]
    cases sa with
    | var v => rfl
    | op f =>
      simp only
      rw [if_neg (lt_irrefl f)]
      simp only [if_true]
      apply lexCmpWith_refl
      intro x hx
      have hm := subwordsList_mem hx
      simp only [List.length_cons] at hm hn
      exact ih (n - 1) (by omega) x (by omega) (complete_ne_nil hm.1)

/-- C2 counterexample: unifying x*y with y*1 succeeds with the substitution
mapping x to y and y to 1, yet applying that substitution to the two words
gives y*1 and 1*1, which are not ordering-Equal, refuting the claim as
stated. -/
theorem C2_counterexample :
    unify (Word.op 2 [Word.var 0, Word.var 1] : Word Nat Nat)
        (Word.op 2 [Word.var 1, Word.op 0 []]) =
      some [(0, Word.var 1), (1, Word.op 0 [])] ∧
    ¬ partialCmp
        (subst (Word.op 2 [Word.var 0, Word.var 1] : Word Nat Nat)
          [(0, Word.var 1), (1, Word.op 0 [])])
        (subst (Word.op 2 [Word.var 1, Word.op 0 []] : Word Nat Nat)
          [(0, Word.var 1), (1, Word.op 0 [])]) = some Ordering.eq := by
  decide

/-- C2 amended: for words that are genuine single-tree prefix encodings,
whenever unify(a, b) returns a substitution s, applying s to a yields
exactly b — and hence a word ordering-Equal to b; applying s to b as well
need not give an ordering-Equal pair, since the source computes a matching
substitution, not a unifier. -/
theorem C2_unify_matches (a b : Word V O) (s : VMap V O)
    (ha : Complete a.syms) (hb : Complete b.syms) (hu : unify a b = some s) :
    subst a s = b ∧ partialCmp (subst a s) b = some Ordering.eq := by
  have h := unify_inv a.syms.length a b s le_rfl ha hb hu
  refine ⟨h.2.2.2, ?_⟩
  rw [h.2.2.2]
  exact pcmp_refl b.syms.length b le_rfl (complete_ne_nil hb)

/-- C2 witness: unifying x*y with y*1 and applying the computed substitution
to x*y reproduces y*1 exactly. -/
theorem C2_witness :
    Complete (Word.op 2 [Word.var 0, Word.var 1] : Word Nat Nat).syms ∧
    Complete (Word.op 2 [Word.var 1, Word.op 0 []] : Word Nat Nat).syms ∧
    subst (Word.op 2 [Word.var 0, Word.var 1] : Word Nat Nat)
        [(0, Word.var 1), (1, Word.op 0 [])] =
      Word.op 2 [Word.var 1, Word.op 0 []] ∧
    partialCmp
        (subst (Word.op 2 [Word.var 0, Word.var 1] : Word Nat Nat)
          [(0, Word.var 1), (1, Word.op 0 [])])
        (Word.op 2 [Word.var 1, Word.op 0 []]) = some Ordering.eq := by
  refine ⟨by decide, by decide, ?_⟩
  exact C2_unify_matches _ _ _ (by decide) (by decide) (by decide)

/-- The subword iterator peels one complete leading tree encoding off the
remaining buffer. -/
theorem subwordsAux_block (k : Nat) (l1 l2 : List (Symbol V O))
    (h : Complete l1) :
    subwordsAux (k + 1) (l1 ++ l2) = ⟨l1⟩ :: subwordsAux k l2 := by
  have hc : takeCount (l1 ++ l2) 1 = l1.length := by
    apply takeCount_block l1 l2 1
    · simpa using h.1
    · intro d hd
      simpa using h.2 d hd
  simp only [subwordsAux, hc]
  rw [if_pos (by simp)]
  congr 1
  · congr 1
    exact List.take_left l1 l2
  · congr 1
    exact List.drop_left l1 l2

/-- The subwords of a binary application built from two complete argument
encodings are exactly those two arguments. -/
theorem subwords_two (f : O) (a1 a2 : Word V O) (hf : Operator.arity f = 2)
    (h1 : Complete a1.syms) (h2 : Complete a2.syms) :
    subwordsList (Word.op f [a1, a2]) = [a1, a2] := by
  have hop : Word.op f [a1, a2] = ⟨Symbol.op f :: (a1.syms ++ a2.syms)⟩ := by
    rw [Word.op]
    simp
  rw [hop, subwordsList_cons]
  simp only [symArity, hf]
  rw [subwordsAux_block 1 _ _ h1]
  have ha2 : a2.syms = a2.syms ++ ([] : List (Symbol V O)) := by simp
  rw [ha2, subwordsAux_block 0 _ _ h2]
  simp [subwordsAux]

/-- Merging entries none of whose keys is already bound always succeeds. -/
theorem mergeSubst_fresh :
    ∀ (entries : List (V × Word V O)) (m : VMap V O), VSorted m →
      List.Pairwise (fun p q : V × Word V O => p.1 < q.1) entries →
      (∀ e ∈ entries, mapGet m e.1 = none) →
      ∃ m', mergeSubst m entries = some m' := by
  intro entries
  induction entries with
  | nil => intro m _ _ _; exact ⟨m, rfl⟩
  | cons e rest ih =>
    intro m hs hp hfree
    obtain ⟨v, w⟩ := e
    have hold : (mapInsert m v w).2 = mapGet m v := mapInsert_old m v w hs
    have hnone : mapGet m v = none := hfree (v, w) (by simp)
    rw [List.pairwise_cons] at hp
    have hfree' : ∀ e ∈ rest, mapGet (mapInsert m v w).1 e.1 = none := by
      intro e he
      rw [mapGet_insert]
      have hvlt : v < e.1 := hp.1 e he
      rw [if_neg (by intro hcontra; rw [hcontra] at hvlt; exact lt_irrefl _ hvlt)]
      exact hfree e (by simp [he])
    obtain ⟨m', hm'⟩ := ih (mapInsert m v w).1
      (mapInsert_sorted m v w hs) hp.2 hfree'
    refine ⟨m', ?_⟩
    simp only [mergeSubst]
    rw [hold, hnone]
    simp only
    exact hm'

/-- Merging entries one of which rebinds an already-bound variable to a
value that is not ordering-Equal fails. -/
theorem mergeSubst_conflict :
    ∀ (entries : List (V × Word V O)) (m : VMap V O) (v : V) (ow w : Word V O),
      VSorted m →
      List.Pairwise (fun p q : V × Word V O => p.1 < q.1) entries →
      (v, w) ∈ entries → mapGet m v = some ow → wordEqb ow w = false →
      mergeSubst m entries = none := by
  intro entries
  induction entries with
  | nil => intro m v ow w _ _ hmem; simp at hmem
  | cons e rest ih =>
    intro m v ow w hs hp hmem hget hne
    obtain ⟨x, wx⟩ := e
    have hold : (mapInsert m x wx).2 = mapGet m x := mapInsert_old m x wx hs
    rw [List.pairwise_cons] at hp
    rcases List.mem_cons.mp hmem with heq | hmem2
    · obtain ⟨rfl, rfl⟩ : x = v ∧ wx = w := by
        constructor
        · exact congrArg Prod.fst heq.symm
        · exact congrArg Prod.snd heq.symm
      simp only [mergeSubst]
      rw [hold, hget]
      simp only
      rw [hne]
      simp
    · have hxv : x ≠ v := by
        intro hcontra
        subst hcontra
        have := hp.1 (x, w) hmem2
        exact lt_irrefl _ this
      simp only [mergeSubst]
      rw [hold]
      cases hgx : mapGet m x with
      | none =>
        simp only
        apply ih (mapInsert m x wx).1 v ow w
          (mapInsert_sorted m x wx hs) hp.2 hmem2 _ hne
        rw [mapGet_insert, if_neg hxv]
        exact hget
      | some owx =>
        simp only
        cases hb : wordEqb owx wx with
        | false => simp
        | true =>
          simp only [if_true]
          apply ih (mapInsert m x wx).1 v ow w
            (mapInsert_sorted m x wx hs) hp.2 hmem2 _ hne
          rw [mapGet_insert, if_neg hxv]
          exact hget

/-- C8: when unifying two words headed by the same (binary) operator, if the
recursive unifications of the argument subwords bind some variable to two
words that are not ordering-Equal, the merge detects the conflict and the
whole unification returns None. -/
theorem C8_conflict (f : O) (a1 a2 b1 b2 : Word V O) (s1 s2 : VMap V O)
    (v : V) (w1 w2 : Word V O)
    (hf : Operator.arity f = 2)
    (ha1 : Complete a1.syms) (ha2 : Complete a2.syms)
    (hb1 : Complete b1.syms) (hb2 : Complete b2.syms)
    (h1 : unify a1 b1 = some s1) (h2 : unify a2 b2 = some s2)
    (hv1 : mapGet s1 v = some w1) (hv2 : mapGet s2 v = some w2)
    (hne : ¬ partialCmp w1 w2 = some Ordering.eq) :
    unify (Word.op f [a1, a2]) (Word.op f [b1, b2]) = none := by
  obtain ⟨hs1, hc1, _, _⟩ := unify_inv a1.syms.length a1 b1 s1 le_rfl ha1 hb1 h1
  obtain ⟨hs2, hc2, _, _⟩ := unify_inv a2.syms.length a2 b2 s2 le_rfl ha2 hb2 h2
  rw [unify_unfold]
  unfold uStep
  have hha : (Word.op f [a1, a2]).syms.head? = some (Symbol.op f) := by
    rw [Word.op]; rfl
  have hhb : (Word.op f [b1, b2]).syms.head? = some (Symbol.op f) := by
    rw [Word.op]; rfl
  rw [hha, hhb]
  simp only [if_pos rfl]
  rw [subwords_two f a1 a2 hf ha1 ha2, subwords_two f b1 b2 hf hb1 hb2]
  have hzip : ([a1, a2].zip [b1, b2]) = [(a1, b1), (a2, b2)] := rfl
  rw [hzip]
  simp only [unifyPairsWith]
  rw [h1]
  simp only
  obtain ⟨m1, hm1⟩ := mergeSubst_fresh s1 [] (by simp [VSorted]) hs1
    (fun e _ => rfl)
  rw [hm1]
  simp only
  rw [h2]
  simp only
  obtain ⟨hm1s, hm1c, _, hent⟩ := mergeSubst_inv s1 [] m1 hm1
    (by simp [VSorted]) (by simp) (fun e he => hc1 e he)
  have hget1 : mapGet m1 v = some w1 := hent (v, w1) (mapGet_mem hv1)
  have hmerge2 : mergeSubst m1 s2 = none := by
    apply mergeSubst_conflict s2 m1 v w1 w2 hm1s hs2 (mapGet_mem hv2) hget1
    rw [wordEqb]
    exact decide_eq_false hne
  rw [hmerge2]
  simp

/-- C8 witness: unifying f(x, x) with f(1, z) for the distinct constants 1
and z fails with a binding conflict on x. -/
theorem C8_witness :
    Operator.arity (2 : Nat) = 2 ∧
    unify (Word.var 0 : Word Nat Nat) (Word.op 0 []) = some [(0, Word.op 0 [])] ∧
    unify (Word.var 0 : Word Nat Nat) (Word.op 3 []) = some [(0, Word.op 3 [])] ∧
    ¬ partialCmp (Word.op 0 [] : Word Nat Nat) (Word.op 3 []) = some Ordering.eq ∧
    unify (Word.op 2 [Word.var 0, Word.var 0] : Word Nat Nat)
      (Word.op 2 [Word.op 0 [], Word.op 3 []]) = none := by
  refine ⟨by decide, by decide, by decide, by decide, ?_⟩
  exact C8_conflict 2 (Word.var 0) (Word.var 0) (Word.op 0 []) (Word.op 3 [])
    [(0, Word.op 0 [])] [(0, Word.op 3 [])] 0 (Word.op 0 []) (Word.op 3 [])
    (by decide) (by decide) (by decide) (by decide) (by decide)
    (by decide) (by decide) (by decide) (by decide) (by decide)

/-- C6 counterexample: for t = (1⁻¹)·(1⁻¹) and u = 1, the constant 1 is a
non-variable proper subword of t (at depth two, inside an argument) and
unifies with u, the whole words do not unify either way, yet critical_term
returns None: the scan looks only at immediate argument subwords, which are
1⁻¹ on both sides and fail to unify with 1. -/
theorem C6_counterexample :
    subwordsList (Word.op 2 [Word.op 1 [Word.op 0 []], Word.op 1 [Word.op 0 []]] :
        Word Nat Nat) = [Word.op 1 [Word.op 0 []], Word.op 1 [Word.op 0 []]] ∧
    subwordsList (Word.op 1 [Word.op 0 []] : Word Nat Nat) = [Word.op 0 []] ∧
    unify (Word.op 0 [] : Word Nat Nat) (Word.op 0 []) = some [] ∧
    unify (Word.op 2 [Word.op 1 [Word.op 0 []], Word.op 1 [Word.op 0 []]] :
      Word Nat Nat) (Word.op 0 []) = none ∧
    unify (Word.op 0 [] : Word Nat Nat)
      (Word.op 2 [Word.op 1 [Word.op 0 []], Word.op 1 [Word.op 0 []]]) = none ∧
    critical_term (Word.op 2 [Word.op 1 [Word.op 0 []], Word.op 1 [Word.op 0 []]] :
      Word Nat Nat) (Word.op 0 []) = none := by
  decide

/-- C6 amended: after whole-term unification fails both ways, critical_term
scans only the immediate argument subwords of t (and then of u), not every
non-variable proper subword; when the first immediate argument subword of t
is non-variable and unifies with u, the result is the whole t with that
unifier applied. -/
theorem C6_immediate_scan (t u s : Word V O) (rest : List (Word V O))
    (m : VMap V O)
    (hth : varHeaded t = false) (huh : varHeaded u = false)
    (htu : unify t u = none) (hut : unify u t = none)
    (hsubs : subwordsList t = s :: rest) (hsh : varHeaded s = false)
    (hsu : unify s u = some m) :
    critical_term t u = some (subst t m) := by
  rw [critical_term, hth, huh]
  simp only [Bool.false_eq_true, if_false]
  rw [htu]
  simp only
  rw [hut]
  simp only
  rw [hsubs]
  simp only [scanSubwords, hsh]
  rw [hsu]
  simp

/-- C6 witness: for t = (x⁻¹)·y and u = 1⁻¹, the first argument subword x⁻¹
unifies with u and critical_term returns t with x bound to 1. -/
theorem C6_witness :
    varHeaded (Word.op 2 [Word.op 1 [Word.var 0], Word.var 1] : Word Nat Nat) = false ∧
    varHeaded (Word.op 1 [Word.op 0 []] : Word Nat Nat) = false ∧
    unify (Word.op 2 [Word.op 1 [Word.var 0], Word.var 1] : Word Nat Nat)
      (Word.op 1 [Word.op 0 []]) = none ∧
    unify (Word.op 1 [Word.op 0 []] : Word Nat Nat)
      (Word.op 2 [Word.op 1 [Word.var 0], Word.var 1]) = none ∧
    subwordsList (Word.op 2 [Word.op 1 [Word.var 0], Word.var 1] : Word Nat Nat) =
      [Word.op 1 [Word.var 0], Word.var 1] ∧
    varHeaded (Word.op 1 [Word.var 0] : Word Nat Nat) = false ∧
    unify (Word.op 1 [Word.var 0] : Word Nat Nat) (Word.op 1 [Word.op 0 []]) =
      some [(0, Word.op 0 [])] ∧
    critical_term (Word.op 2 [Word.op 1 [Word.var 0], Word.var 1] : Word Nat Nat)
        (Word.op 1 [Word.op 0 []]) =
      some (subst (Word.op 2 [Word.op 1 [Word.var 0], Word.var 1] : Word Nat Nat)
        [(0, Word.op 0 [])]) := by
  refine ⟨by decide, by decide, by decide, by decide, by decide, by decide,
    by decide, ?_⟩
  exact C6_immediate_scan (Word.op 2 [Word.op 1 [Word.var 0], Word.var 1])
    (Word.op 1 [Word.op 0 []]) (Word.op 1 [Word.var 0]) [Word.var 1]
    [(0, Word.op 0 [])] (by decide) (by decide)
    (by decide) (by decide) (by decide) (by decide) (by decide)

theorem head?_some {α : Type} {l : List α} {s : α} (h : l.head? = some s) :
    ∃ t, l = s :: t := by
  cases l with
  | nil => simp at h
  | cons x t =>
    simp at h
    subst h
    exact ⟨t, rfl⟩

theorem zip_swap {α β : Type} :
    ∀ (xs : List α) (ys : List β) (q : α × β), q ∈ xs.zip ys →
      (q.2, q.1) ∈ ys.zip xs := by
  intro xs
  induction xs with
  | nil => intro ys q hq; simp at hq
  | cons x xs ih =>
    intro ys q hq
    cases ys with
    | nil => simp at hq
    | cons y ys =>
      rcases List.mem_cons.mp hq with rfl | hq2
      · simp
      · simpa using Or.inr (ih ys q hq2)

theorem pcmp_gt_weight_intro {a b : Word V O} (hw : weight b < weight a)
    (hc : ∀ v, nOcc b v ≤ nOcc a v) : partialCmp a b = some Ordering.gt := by
  rw [partialCmp_unfold]
  unfold pcStep
  rw [if_pos hw, if_pos (nGeAll_iff.mpr hc)]

theorem pcmp_lt_weight_intro {a b : Word V O} (hw : weight a < weight b)
    (hc : ∀ v, nOcc a v ≤ nOcc b v) : partialCmp a b = some Ordering.lt := by
  rw [partialCmp_unfold]
  unfold pcStep
  rw [if_neg (by omega), if_neg (by omega), if_pos (nLeAll_iff.mpr hc)]

theorem pcmp_gt_opvar_intro {a b : Word V O} {f : O} {v2 : V}
    {ta tb : List (Symbol V O)}
    (hA : a.syms = Symbol.op f :: ta) (hB : b.syms = Symbol.var v2 :: tb)
    (hw : weight a = weight b) (hc : ∀ v, nOcc a v = nOcc b v) :
    partialCmp a b = some Ordering.gt := by
  rw [partialCmp_unfold]
  unfold pcStep
  rw [if_neg (by rw [hw]; exact lt_irrefl _), if_pos hw,
    if_pos (nEqAll_iff.mpr hc), hA, hB]
  simp

theorem pcmp_lt_varop_intro {a b : Word V O} {v1 : V} {g : O}
    {ta tb : List (Symbol V O)}
    (hA : a.syms = Symbol.var v1 :: ta) (hB : b.syms = Symbol.op g :: tb)
    (hw : weight a = weight b) (hc : ∀ v, nOcc a v = nOcc b v) :
    partialCmp a b = some Ordering.lt := by
  rw [partialCmp_unfold]
  unfold pcStep
  rw [if_neg (by rw [hw]; exact lt_irrefl _), if_pos hw,
    if_pos (nEqAll_iff.mpr hc), hA, hB]
  simp

theorem pcmp_eq_varvar_intro {a b : Word V O} {v1 v2 : V}
    {ta tb : List (Symbol V O)}
    (hA : a.syms = Symbol.var v1 :: ta) (hB : b.syms = Symbol.var v2 :: tb)
    (hw : weight a = weight b) (hc : ∀ v, nOcc a v = nOcc b v) :
    partialCmp a b = some Ordering.eq := by
  rw [partialCmp_unfold]
  unfold pcStep
  rw [if_neg (by rw [hw]; exact lt_irrefl _), if_pos hw,
    if_pos (nEqAll_iff.mpr hc), hA, hB]
  simp

theorem pcmp_gt_opop_intro {a b : Word V O} {f g : O}
    {ta tb : List (Symbol V O)}
    (hA : a.syms = Symbol.op f :: ta) (hB : b.syms = Symbol.op g :: tb)
    (hfg : g < f)
    (hw : weight a = weight b) (hc : ∀ v, nOcc a v = nOcc b v) :
    partialCmp a b = some Ordering.gt := by
  rw [partialCmp_unfold]
  unfold pcStep
  rw [if_neg (by rw [hw]; exact lt_irrefl _), if_pos hw,
    if_pos (nEqAll_iff.mpr hc), hA, hB]
  simp only [List.head?_cons]
  rw [if_pos hfg]

theorem pcmp_lt_opop_intro {a b : Word V O} {f g : O}
    {ta tb : List (Symbol V O)}
    (hA : a.syms = Symbol.op f :: ta) (hB : b.syms = Symbol.op g :: tb)
    (hfg : f < g)
    (hw : weight a = weight b) (hc : ∀ v, nOcc a v = nOcc b v) :
    partialCmp a b = some Ordering.lt := by
  rw [partialCmp_unfold]
  unfold pcStep
  rw [if_neg (by rw [hw]; exact lt_irrefl _), if_pos hw,
    if_pos (nEqAll_iff.mpr hc), hA, hB]
  simp only [List.head?_cons]
  rw [if_neg (lt_asymm hfg), if_neg (ne_of_lt hfg)]

theorem pcmp_lex_opop_intro {a b : Word V O} {f : O}
    {ta tb : List (Symbol V O)}
    (hA : a.syms = Symbol.op f :: ta) (hB : b.syms = Symbol.op f :: tb)
    (hw : weight a = weight b) (hc : ∀ v, nOcc a v = nOcc b v) :
    partialCmp a b = lexCmpWith partialCmp (subwordsList a) (subwordsList b) := by
  rw [partialCmp_unfold]
  unfold pcStep
  rw [if_neg (by rw [hw]; exact lt_irrefl _), if_pos hw,
    if_pos (nEqAll_iff.mpr hc), hA, hB]
  simp only [List.head?_cons]
  rw [if_neg (lt_irrefl f)]
  simp only [if_true]

/-- Case analysis of a Greater outcome of partial_cmp. -/
theorem pcmp_gt_cases {a b : Word V O} (h : partialCmp a b = some Ordering.gt) :
    (weight b < weight a ∧ ∀ v, nOcc b v ≤ nOcc a v) ∨
    (weight a = weight b ∧ (∀ v, nOcc a v = nOcc b v) ∧
      ((∃ f v2 ta tb, a.syms = Symbol.op f :: ta ∧ b.syms = Symbol.var v2 :: tb) ∨
       (∃ f g ta tb, a.syms = Symbol.op f :: ta ∧ b.syms = Symbol.op g :: tb ∧
         g < f) ∨
       (∃ f ta tb, a.syms = Symbol.op f :: ta ∧ b.syms = Symbol.op f :: tb ∧
         lexCmpWith partialCmp (subwordsList a) (subwordsList b) =
           some Ordering.gt))) := by
  rw [partialCmp_unfold] at h
  unfold pcStep at h
  split at h
  · split at h
    · rename_i hw hc
      exact Or.inl ⟨hw, nGeAll_iff.mp hc⟩
    · cases h
  · split at h
    · split at h
      · rename_i hnlt hw hc
        refine Or.inr ⟨hw, nEqAll_iff.mp hc, ?_⟩
        split at h
        · rename_i hha hhb
          obtain ⟨ta, hta⟩ := head?_some hha
          obtain ⟨tb, htb⟩ := head?_some hhb
          exact Or.inl ⟨_, _, ta, tb, hta, htb⟩
        · cases h
        · cases h
        · rename_i hha hhb
          obtain ⟨ta, hta⟩ := head?_some hha
          obtain ⟨tb, htb⟩ := head?_some hhb
          split at h
          · rename_i hgf
            exact Or.inr (Or.inl ⟨_, _, ta, tb, hta, htb, hgf⟩)
          · split at h
            · rename_i hfg
              subst hfg
              exact Or.inr (Or.inr ⟨_, ta, tb, hta, htb, h⟩)
            · cases h
        · cases h
      · cases h
    · split at h <;> cases h

/-- Case analysis of an Equal outcome of partial_cmp. -/
theorem pcmp_eq_cases {a b : Word V O} (h : partialCmp a b = some Ordering.eq) :
    weight a = weight b ∧ (∀ v, nOcc a v = nOcc b v) ∧
    ((∃ v1 v2 ta tb, a.syms = Symbol.var v1 :: ta ∧ b.syms = Symbol.var v2 :: tb) ∨
     (∃ f ta tb, a.syms = Symbol.op f :: ta ∧ b.syms = Symbol.op f :: tb ∧
       lexCmpWith partialCmp (subwordsList a) (subwordsList b) =
         some Ordering.eq)) := by
  rw [partialCmp_unfold] at h
  unfold pcStep at h
  split at h
  · split at h <;> cases h
  · split at h
    · split at h
      · rename_i hnlt hw hc
        refine ⟨hw, nEqAll_iff.mp hc, ?_⟩
        split at h
        · cases h
        · cases h
        · rename_i hha hhb
          obtain ⟨ta, hta⟩ := head?_some hha
          obtain ⟨tb, htb⟩ := head?_some hhb
          exact Or.inl ⟨_, _, ta, tb, hta, htb⟩
        · rename_i hha hhb
          obtain ⟨ta, hta⟩ := head?_some hha
          obtain ⟨tb, htb⟩ := head?_some hhb
          split at h
          · cases h
          · split at h
            · rename_i hfg
              subst hfg
              exact Or.inr ⟨_, ta, tb, hta, htb, h⟩
            · cases h
        · cases h
      · cases h
    · split at h <;> cases h

/-- The Equal outcome of partial_cmp is symmetric on all words. -/
theorem pcmp_eq_symm :
    ∀ (n : Nat) (a b : Word V O), a.syms.length + b.syms.length ≤ n →
      partialCmp a b = some Ordering.eq → partialCmp b a = some Ordering.eq := by
  intro n
  induction n using Nat.strong_induction_on with
  | _ n ih =>
    intro a b hn h
    obtain ⟨hw, hc, hcase⟩ := pcmp_eq_cases h
    rcases hcase with ⟨v1, v2, ta, tb, hta, htb⟩ | ⟨f, ta, tb, hta, htb, hlex⟩
    · exact pcmp_eq_varvar_intro htb hta hw.symm (fun v => (hc v).symm)
    · have hla : 0 < a.syms.length := by rw [hta]; simp
      have hlb : 0 < b.syms.length := by rw [htb]; simp
      have hlex2 : lexCmpWith partialCmp (subwordsList b) (subwordsList a) =
          some Ordering.eq := by
        rw [lexCmpWith_eq_iff]
        obtain ⟨hlen, hall⟩ := (lexCmpWith_eq_iff _ _ _).mp hlex
        refine ⟨hlen.symm, ?_⟩
        intro q hq
        have hq2 := zip_swap _ _ q hq
        have hm1 := subwordsList_mem (List.of_mem_zip hq2).1
        have hm2 := subwordsList_mem (List.of_mem_zip hq2).2
        exact ih (n - 1) (by omega) q.2 q.1 (by omega) (hall (q.2, q.1) hq2)
      rw [pcmp_lex_opop_intro htb hta hw.symm (fun v => (hc v).symm)]
      exact hlex2

theorem lexCmpWith_gt_swap (cmp : Word V O → Word V O → Option Ordering) :
    ∀ xs ys,
      (∀ x ∈ xs, ∀ y ∈ ys, cmp x y = some Ordering.eq →
        cmp y x = some Ordering.eq) →
      (∀ x ∈ xs, ∀ y ∈ ys, cmp x y = some Ordering.gt →
        cmp y x = some Ordering.lt) →
      lexCmpWith cmp xs ys = some Ordering.gt →
      lexCmpWith cmp ys xs = some Ordering.lt := by
  intro xs
  induction xs with
  | nil =>
    intro ys _ _ h
    cases ys <;> simp [lexCmpWith] at h
  | cons x xs ih =>
    intro ys hsym hgl h
    cases ys with
    | nil => simp [lexCmpWith]
    | cons y ys =>
      simp only [lexCmpWith] at h ⊢
      cases hc : cmp x y with
      | none => rw [hc] at h; simp at h
      | some o =>
        cases o with
        | lt => rw [hc] at h; simp at h
        | gt =>
          rw [hgl x (by simp) y (by simp) hc]
        | eq =>
          rw [hc] at h
          simp only at h
          rw [hsym x (by simp) y (by simp) hc]
          exact ih ys (fun a2 ha2 b2 hb2 => hsym a2 (by simp [ha2]) b2 (by simp [hb2]))
            (fun a2 ha2 b2 hb2 => hgl a2 (by simp [ha2]) b2 (by simp [hb2])) h

/-- A Greater outcome of partial_cmp reverses to Less on all words. -/
theorem pcmp_gt_imp_lt :
    ∀ (n : Nat) (a b : Word V O), a.syms.length + b.syms.length ≤ n →
      partialCmp a b = some Ordering.gt → partialCmp b a = some Ordering.lt := by
  intro n
  induction n using Nat.strong_induction_on with
  | _ n ih =>
    intro a b hn h
    rcases pcmp_gt_cases h with ⟨hw, hc⟩ | ⟨hw, hc, hcase⟩
    · exact pcmp_lt_weight_intro hw hc
    · rcases hcase with ⟨f, v2, ta, tb, hta, htb⟩ |
        ⟨f, g, ta, tb, hta, htb, hgf⟩ | ⟨f, ta, tb, hta, htb, hlex⟩
      · exact pcmp_lt_varop_intro htb hta hw.symm (fun v => (hc v).symm)
      · exact pcmp_lt_opop_intro htb hta hgf hw.symm (fun v => (hc v).symm)
      · have hla : 0 < a.syms.length := by rw [hta]; simp
        have hlb : 0 < b.syms.length := by rw [htb]; simp
        rw [pcmp_lex_opop_intro htb hta hw.symm (fun v => (hc v).symm)]
        apply lexCmpWith_gt_swap partialCmp _ _ _ _ hlex
        · intro x hx y hy hxy
          have hm1 := subwordsList_mem hx
          have hm2 := subwordsList_mem hy
          exact pcmp_eq_symm (n - 1) x y (by omega) hxy
        · intro x hx y hy hxy
          have hm1 := subwordsList_mem hx
          have hm2 := subwordsList_mem hy
          exact ih (n - 1) (by omega) x y (by omega) hxy

theorem lexCmpWith_gt_trans (cmp : Word V O → Word V O → Option Ordering) :
    ∀ xs ys zs,
      (∀ x ∈ xs, cmp x x = some Ordering.eq) →
      (∀ x ∈ xs, ∀ y ∈ ys, cmp x y = some Ordering.eq → x = y) →
      (∀ y ∈ ys, ∀ z ∈ zs, cmp y z = some Ordering.eq → y = z) →
      (∀ x ∈ xs, ∀ y ∈ ys, ∀ z ∈ zs, cmp x y = some Ordering.gt →
        cmp y z = some Ordering.gt → cmp x z = some Ordering.gt) →
      lexCmpWith cmp xs ys = some Ordering.gt →
      lexCmpWith cmp ys zs = some Ordering.gt →
      lexCmpWith cmp xs zs = some Ordering.gt := by
  intro xs
  induction xs with
  | nil =>
    intro ys zs _ _ _ _ h1 _
    cases ys <;> simp [lexCmpWith] at h1
  | cons x xs ih =>
    intro ys zs hrefl heq1 heq2 htr h1 h2
    cases ys with
    | nil => cases zs <;> simp [lexCmpWith] at h2
    | cons y ys =>
      cases zs with
      | nil => simp [lexCmpWith]
      | cons z zs =>
        simp only [lexCmpWith] at h1 h2 ⊢
        cases hxy : cmp x y with
        | none => rw [hxy] at h1; simp at h1
        | some o1 =>
          cases o1 with
          | lt => rw [hxy] at h1; simp at h1
          | eq =>
            rw [hxy] at h1
            simp only at h1
            have hxey : x = y := heq1 x (by simp) y (by simp) hxy
            cases hyz : cmp y z with
            | none => rw [hyz] at h2; simp at h2
            | some o2 =>
              cases o2 with
              | lt => rw [hyz] at h2; simp at h2
              | gt =>
                have hxz : cmp x z = some Ordering.gt := by rw [hxey]; exact hyz
                rw [hxz]
              | eq =>
                rw [hyz] at h2
                simp only at h2
                have hyez : y = z := heq2 y (by simp) z (by simp) hyz
                have hxez : x = z := hxey.trans hyez
                have hxz : cmp x z = some Ordering.eq := by
                  rw [← hxez]
                  exact hrefl x (by simp)
                rw [hxz]
                simp only
                exact ih ys zs (fun q hq => hrefl q (by simp [hq]))
                  (fun q hq r hr => heq1 q (by simp [hq]) r (by simp [hr]))
                  (fun q hq r hr => heq2 q (by simp [hq]) r (by simp [hr]))
                  (fun q hq r hr t ht => htr q (by simp [hq]) r (by simp [hr]) t (by simp [ht]))
                  h1 h2
          | gt =>
            rw [hxy] at h1
            cases hyz : cmp y z with
            | none => rw [hyz] at h2; simp at h2
            | some o2 =>
              cases o2 with
              | lt => rw [hyz] at h2; simp at h2
              | eq =>
                have hyez : y = z := heq2 y (by simp) z (by simp) hyz
                have hxz : cmp x z = some Ordering.gt := by rw [← hyez]; exact hxy
                rw [hxz]
              | gt =>
                have hxz := htr x (by simp) y (by simp) z (by simp) hxy hyz
                rw [hxz]

/-- The Greater outcome of partial_cmp is transitive on all words. -/
theorem pcmp_gt_trans :
    ∀ (n : Nat) (a b c : Word V O),
      a.syms.length + b.syms.length + c.syms.length ≤ n →
      partialCmp a b = some Ordering.gt → partialCmp b c = some Ordering.gt →
      partialCmp a c = some Ordering.gt := by
  intro n
  induction n using Nat.strong_induction_on with
  | _ n ih =>
    intro a b c hn hab hbc
    rcases pcmp_gt_cases hab with ⟨hw1, hc1⟩ | ⟨hw1, hc1, hcase1⟩
    · rcases pcmp_gt_cases hbc with ⟨hw2, hc2⟩ | ⟨hw2, hc2, _⟩
      · exact pcmp_gt_weight_intro (by omega)
          (fun v => by have := hc1 v; have := hc2 v; omega)
      · exact pcmp_gt_weight_intro (by omega)
          (fun v => by have := hc1 v; have := hc2 v; omega)
    · rcases pcmp_gt_cases hbc with ⟨hw2, hc2⟩ | ⟨hw2, hc2, hcase2⟩
      · exact pcmp_gt_weight_intro (by omega)
          (fun v => by have := hc1 v; have := hc2 v; omega)
      · rcases hcase1 with ⟨f, v2, ta, tb, hta, htb⟩ |
          ⟨f, g, ta, tb, hta, htb, hgf⟩ | ⟨f, ta, tb, hta, htb, hlex1⟩
        · -- middle word is a bare-variable head; it cannot be Greater in the
          -- equal-weight case, so this combination is impossible
          exfalso
          rcases hcase2 with ⟨f2, v3, tb2, tc, htb2, _⟩ |
            ⟨f2, g2, tb2, tc, htb2, _, _⟩ | ⟨f2, tb2, tc, htb2, _, _⟩ <;>
            (rw [htb] at htb2; simp at htb2)
        · rcases hcase2 with ⟨f2, v3, tb2, tc, htb2, htc⟩ |
            ⟨f2, g2, tb2, tc, htb2, htc, hg2⟩ | ⟨f2, tb2, tc, htb2, htc, hlex2⟩
          · exact pcmp_gt_opvar_intro hta htc (by omega)
              (fun v => by have := hc1 v; have := hc2 v; omega)
          · rw [htb] at htb2
            simp at htb2
            obtain ⟨hgf2, _⟩ := htb2
            subst hgf2
            exact pcmp_gt_opop_intro hta htc (lt_trans hg2 hgf) (by omega)
              (fun v => by have := hc1 v; have := hc2 v; omega)
          · rw [htb] at htb2
            simp at htb2
            obtain ⟨hgf2, _⟩ := htb2
            subst hgf2
            exact pcmp_gt_opop_intro hta htc hgf (by omega)
              (fun v => by have := hc1 v; have := hc2 v; omega)
        · rcases hcase2 with ⟨f2, v3, tb2, tc, htb2, htc⟩ |
            ⟨f2, g2, tb2, tc, htb2, htc, hg2⟩ | ⟨f2, tb2, tc, htb2, htc, hlex2⟩
          · exact pcmp_gt_opvar_intro hta htc (by omega)
              (fun v => by have := hc1 v; have := hc2 v; omega)
          · rw [htb] at htb2
            simp at htb2
            obtain ⟨hgf2, _⟩ := htb2
            subst hgf2
            exact pcmp_gt_opop_intro hta htc hg2 (by omega)
              (fun v => by have := hc1 v; have := hc2 v; omega)
          · rw [htb] at htb2
            simp at htb2
            obtain ⟨hgf2, htbeq⟩ := htb2
            subst hgf2
            subst htbeq
            have hla : 0 < a.syms.length := by rw [hta]; simp
            have hlb : 0 < b.syms.length := by rw [htb]; simp
            have hlc : 0 < c.syms.length := by rw [htc]; simp
            have hlex3 : lexCmpWith partialCmp (subwordsList a) (subwordsList c) =
                some Ordering.gt := by
              apply lexCmpWith_gt_trans partialCmp _ (subwordsList b) _ _ _ _ _
                hlex1 hlex2
              · intro x hx
                have hm := subwordsList_mem hx
                exact pcmp_refl x.syms.length x le_rfl (complete_ne_nil hm.1)
              · intro x hx y hy hxy
                have hm1 := subwordsList_mem hx
                have hm2 := subwordsList_mem hy
                exact pcmp_eq_imp_eq x.syms.length x y le_rfl hm1.1 hm2.1 hxy
              · intro y hy z hz hyz
                have hm1 := subwordsList_mem hy
                have hm2 := subwordsList_mem hz
                exact pcmp_eq_imp_eq y.syms.length y z le_rfl hm1.1 hm2.1 hyz
              · intro x hx y hy z hz hxy hyz
                have hm1 := subwordsList_mem hx
                have hm2 := subwordsList_mem hy
                have hm3 := subwordsList_mem hz
                exact ih (n - 1) (by omega) x y z (by omega) hxy hyz
            rw [pcmp_lex_opop_intro hta htc (by omega)
              (fun v => by have := hc1 v; have := hc2 v; omega)]
            exact hlex3

/-- C1: on well-formed words the comparison is a strict partial order: every
well-formed word compares Equal to itself (never Greater or Less), and the
Greater relation is antisymmetric and transitive wherever it holds. -/
theorem C1_strict_partial_order :
    (∀ a : Word V O, isWF a = true → partialCmp a a = some Ordering.eq ∧
      ¬ partialCmp a a = some Ordering.gt ∧
      ¬ partialCmp a a = some Ordering.lt) ∧
    (∀ a b : Word V O, isWF a = true → isWF b = true →
      partialCmp a b = some Ordering.gt →
      ¬ partialCmp b a = some Ordering.gt) ∧
    (∀ a b c : Word V O, isWF a = true → isWF b = true → isWF c = true →
      partialCmp a b = some Ordering.gt → partialCmp b c = some Ordering.gt →
      partialCmp a c = some Ordering.gt) := by
  have hne : ∀ a : Word V O, isWF a = true → a.syms ≠ [] := by
    intro a ha hnil
    rw [isWF, decide_eq_true_iff, hnil] at ha
    simp [bal] at ha
  refine ⟨?_, ?_, ?_⟩
  · intro a ha
    have h := pcmp_refl a.syms.length a le_rfl (hne a ha)
    refine ⟨h, ?_, ?_⟩
    · rw [h]; simp
    · rw [h]; simp
  · intro a b _ _ hab
    have h := pcmp_gt_imp_lt (a.syms.length + b.syms.length) a b le_rfl hab
    rw [h]
    simp
  · intro a b c _ _ _ hab hbc
    exact pcmp_gt_trans (a.syms.length + b.syms.length + c.syms.length)
      a b c le_rfl hab hbc

/-- C1 witness: over the concrete signature, x*1 compares Equal to itself
and Greater than x, x is Greater than the weight-0 constant z, x*1 is not
Less-reversed into Greater, and transitivity yields x*1 Greater than z. -/
theorem C1_witness :
    (partialCmp (Word.op 2 [Word.var 0, Word.op 0 []] : Word Nat Nat)
        (Word.op 2 [Word.var 0, Word.op 0 []]) = some Ordering.eq ∧
      ¬ partialCmp (Word.op 2 [Word.var 0, Word.op 0 []] : Word Nat Nat)
        (Word.op 2 [Word.var 0, Word.op 0 []]) = some Ordering.gt ∧
      ¬ partialCmp (Word.op 2 [Word.var 0, Word.op 0 []] : Word Nat Nat)
        (Word.op 2 [Word.var 0, Word.op 0 []]) = some Ordering.lt) ∧
    ¬ partialCmp (Word.var 0 : Word Nat Nat)
      (Word.op 2 [Word.var 0, Word.op 0 []]) = some Ordering.gt ∧
    partialCmp (Word.op 2 [Word.var 0, Word.op 0 []] : Word Nat Nat)
      (Word.op 3 []) = some Ordering.gt := by
  refine ⟨C1_strict_partial_order.1 _ (by decide), ?_, ?_⟩
  · exact C1_strict_partial_order.2.1
      (Word.op 2 [Word.var 0, Word.op 0 []]) (Word.var 0)
      (by decide) (by decide) (by decide)
  · exact C1_strict_partial_order.2.2
      (Word.op 2 [Word.var 0, Word.op 0 []]) (Word.var 0) (Word.op 3 [])
      (by decide) (by decide) (by decide) (by decide) (by decide)

end KB
